import Mathlib

/-!
Verification model of `src/bin/gtav-saveload.rs` from `udoprog/gtav-helpers`.

The program is synchronous, single-threaded file manipulation, so we embed it
over an explicit filesystem state: an association list from absolute paths to
nodes.  A path is a list of file names; a file name is either a UTF-8 string
(the only kind the program's name predicates can see) or an opaque non-UTF-8
name, mirroring `path.file_name().and_then(|n| n.to_str())` returning `None`.

Fallible operations (everything using `?` in the Rust source) return `Option`:
`none` models the `Err` case that aborts the run.  Directory modification
times are `Nat` timestamps stored in the directory node (set at creation; the
claims never depend on mtime updates, only on a single `find_newest_slot`
call over a given state).  `println!` output is modelled only where a claim
mentions it: the dispatcher-level messages (missing profile directory,
failed directory removal) are collected in a log list.
-/

/-- A file name: either a valid UTF-8 name, or an opaque non-UTF-8 name
(identified by a tag) for which `OsStr::to_str` returns `None`. -/
inductive FName where
  | utf8 (s : String)
  | nonUtf8 (id : Nat)
deriving DecidableEq

/-- An absolute path: the list of file names from the root down. -/
abbrev FPath := List FName

/-- A filesystem node: a regular file with contents, or a directory with a
last-modified timestamp. -/
inductive Node where
  | file (content : String)
  | dir (mtime : Nat)
deriving DecidableEq

/-- A filesystem state: an association list from paths to nodes.  Lookup
takes the first matching entry. -/
abbrev FS := List (FPath × Node)

/-- Look a path up in the filesystem (first matching entry). -/
def fsLookup : FS → FPath → Option Node
  | [], _ => none
  | e :: rest, p => if e.1 = p then some e.2 else fsLookup rest p

/-- Model of `Path::is_file`. -/
def is_file (fs : FS) (p : FPath) : Bool :=
  match fsLookup fs p with
  | some (Node.file _) => true
  | _ => false

/-- Model of `Path::is_dir`. -/
def is_dir (fs : FS) (p : FPath) : Bool :=
  match fsLookup fs p with
  | some (Node.dir _) => true
  | _ => false

/-- If `q` is a direct child of directory `p`, return its final name. -/
def childOf (p q : FPath) : Option FName :=
  if q.dropLast = p then q.getLast? else none

/-- Model of `fs::read_dir`: the names of the direct children of `p`, in
filesystem-state order; fails when `p` is not a directory. -/
def read_dir (fs : FS) (p : FPath) : Option (List FName) :=
  if is_dir fs p then some (fs.filterMap (fun e => childOf p e.1)) else none

/-- Boolean test that `pre` is a leading segment of `s`
(model of `str::starts_with`). -/
def listStarts : List Char → List Char → Bool
  | [], _ => true
  | _ :: _, [] => false
  | a :: xs, b :: ys => a = b && listStarts xs ys

/-- Model of `str::starts_with` on strings. -/
def str_starts (s p : String) : Bool := listStarts p.data s.data

/-- Boolean test that `sub` occurs as a contiguous segment of the second list
(model of `str::contains` with a string pattern). -/
def listHasSub (sub : List Char) : List Char → Bool
  | [] => listStarts sub []
  | a :: rest => listStarts sub (a :: rest) || listHasSub sub rest

/-- Model of `str::contains` on strings. -/
def strHasSub (s sub : String) : Bool := listHasSub sub.data s.data

/-- Byte-lexicographic order on strings (model of `str`'s `Ord`; UTF-8 byte
order coincides with code-point order). -/
def listLe : List Char → List Char → Bool
  | [], _ => true
  | _ :: _, [] => false
  | a :: xs, b :: ys => if a = b then listLe xs ys else decide (a < b)

/-- Lexicographic `≤` on strings, as compared by Rust's `Ord for str`. -/
def strLe (a b : String) : Bool := listLe a.data b.data

/-- Insert an element into a sorted list, before the first entry it may
precede.  For a total preorder this places an inserted element before every
tied entry already present. -/
def insertSorted (le : α → α → Bool) (a : α) : List α → List α
  | [] => [a]
  | b :: bs => if le a b then a :: b :: bs else b :: insertSorted le a bs

/-- Stable insertion sort, modelling `slice::sort_by`: for a total preorder
comparator a stable sort's output is unique, so this agrees with Rust's
stable merge sort. -/
def sortBy (le : α → α → Bool) : List α → List α
  | [] => []
  | a :: as => insertSorted le a (sortBy le as)

/-- The loop body of `find_matching`: skip an entry whose name is not
representable as UTF-8, and keep an entry whose full path satisfies `p` and
whose name satisfies `m`, as a `(name, path)` pair. -/
def match_entry (path : FPath) (p : FPath → Bool) (m : String → Bool) :
    FName → Option (String × FPath)
  | FName.utf8 s =>
      if p (path ++ [FName.utf8 s]) && m s then some (s, path ++ [FName.utf8 s]) else none
  | FName.nonUtf8 _ => none

/-- Model of `find_matching`: scan the entries of `path`, applying
`match_entry` to each. -/
def find_matching (fs : FS) (path : FPath) (p : FPath → Bool) (m : String → Bool) :
    Option (List (String × FPath)) := do
  let entries ← read_dir fs path
  pure (entries.filterMap (match_entry path p m))

/-- Model of `list_save_files`: the files directly in `path` whose name
starts with `"SGTA"`. -/
def list_save_files (fs : FS) (path : FPath) : Option (List (String × FPath)) :=
  find_matching fs path (fun q => is_file fs q) (fun n => str_starts n "SGTA")

/-- Model of `list_name_contains`: the directories directly in `path` whose
name contains `name` as a substring. -/
def list_name_contains (fs : FS) (path : FPath) (name : String) :
    Option (List (String × FPath)) :=
  find_matching fs path (fun q => is_dir fs q) (fun n => strHasSub n name)

/-- Model of `fs::create_dir`: fails when the path already exists or the
parent is not a directory; otherwise appends a fresh directory node with the
current timestamp. -/
def create_dir (fs : FS) (p : FPath) (now : Nat) : Option FS :=
  if (fsLookup fs p).isSome then none
  else if is_dir fs p.dropLast then some (fs ++ [(p, Node.dir now)]) else none

/-- Model of `ensure_slot`: return `profile/Slots`, creating it when absent. -/
def ensure_slot (fs : FS) (path : FPath) (now : Nat) : Option (FS × FPath) :=
  if is_dir fs (path ++ [FName.utf8 "Slots"]) then some (fs, path ++ [FName.utf8 "Slots"])
  else match create_dir fs (path ++ [FName.utf8 "Slots"]) now with
       | some fs1 => some (fs1, path ++ [FName.utf8 "Slots"])
       | none => none

/-- Model of `fs::remove_file`: fails unless the path is a file; removes
every entry at that path. -/
def remove_file (fs : FS) (p : FPath) : Option FS :=
  if is_file fs p then some (fs.filter (fun e => !decide (e.1 = p))) else none

/-- Model of `delete_save_files`: list the save files of `path`, then remove
each in turn, aborting on the first failure. -/
def delete_save_files (fs : FS) (path : FPath) : Option FS := do
  let saves ← list_save_files fs path
  saves.foldlM (fun acc sf => remove_file acc sf.2) fs

/-- Model of `fs::copy`: read the source file's contents and write them at
`dst`.  Fails when the source is not a file, when `dst` exists as a
directory, or when `dst` is absent and its parent is not a directory. -/
def fs_copy (fs : FS) (src dst : FPath) : Option FS :=
  match fsLookup fs src with
  | some (Node.file c) =>
    match fsLookup fs dst with
    | some (Node.dir _) => none
    | some (Node.file _) =>
        some (fs.map (fun e => if e.1 = dst then (dst, Node.file c) else e))
    | none =>
        if is_dir fs dst.dropLast then some (fs ++ [(dst, Node.file c)]) else none
  | _ => none

/-- Model of `copy_save_files`: delete the destination's save files, then
copy each of the source's save files (listed after the deletion, as in the
source, where `list_save_files(&from)` runs after `delete_save_files(&to)`). -/
def copy_save_files (fs : FS) (f t : FPath) : Option FS := do
  let fs1 ← delete_save_files fs t
  let saves ← list_save_files fs1 f
  saves.foldlM (fun acc sf =>
    match sf.2.getLast? with
    | some n => fs_copy acc sf.2 (t ++ [n])
    | none => some acc) fs1

/-- Model of `fs::metadata(..)?.modified()?` as used on slot directories. -/
def metadata_modified (fs : FS) (p : FPath) : Option Nat :=
  match fsLookup fs p with
  | some (Node.dir t) => some t
  | _ => none

/-- Model of `find_newest_slot`: ensure `Slots` exists, list its
subdirectories, pair each with its modification time, sort descending by
time (stable, as Rust's `sort_by` with `b.1.cmp(&a.1)`), and return the
entry at index `nth`, when any. -/
def find_newest_slot (fs : FS) (profile : FPath) (nth : Nat) (now : Nat) :
    Option (FS × Option FPath) := do
  let (fs1, slots) ← ensure_slot fs profile now
  let subs ← find_matching fs1 slots (fun q => is_dir fs1 q) (fun _ => true)
  let withMeta ← subs.mapM (fun s => (metadata_modified fs1 s.2).map (fun mt => (s.2, mt)))
  let sorted := sortBy (fun a b => decide (b.2 ≤ a.2)) withMeta
  pure (fs1, (sorted[nth]?).map (fun n => n.1))

/-- Model of `fs::remove_dir`: fails unless the path is a directory with no
children; removes the entry. -/
def remove_dir (fs : FS) (p : FPath) : Option FS :=
  match fsLookup fs p with
  | some (Node.dir _) =>
    if fs.any (fun e => (childOf p e.1).isSome) then none
    else some (fs.filter (fun e => !decide (e.1 = p)))
  | _ => none

/-- The parsed command-line arguments of `main` (after `clap` matching and,
for the two numeric flags, after `str::parse::<usize>` has succeeded). -/
structure Args where
  save : Option String
  load : Option String
  loadSaveFile : Option String
  saveDated : Bool
  clearProfile : Bool
  loadNth : Option Nat
  deleteNth : Option Nat
deriving DecidableEq

/-- The `--save <slot>` branch of `main`: ensure `Slots`, create the slot
directory when absent, then copy profile → slot. -/
def save_branch (fs : FS) (profile : FPath) (slotName : String) (now : Nat) :
    Option FS := do
  let (fs1, slots) ← ensure_slot fs profile now
  let slot := slots ++ [FName.utf8 slotName]
  let fs2 ← if is_dir fs1 slot then some fs1 else create_dir fs1 slot now
  copy_save_files fs2 profile slot

/-- The `--load <slot>` branch of `main`: ensure `Slots`, create the slot
directory when absent, then copy slot → profile. -/
def load_branch (fs : FS) (profile : FPath) (slotName : String) (now : Nat) :
    Option FS := do
  let (fs1, slots) ← ensure_slot fs profile now
  let slot := slots ++ [FName.utf8 slotName]
  let fs2 ← if is_dir fs1 slot then some fs1 else create_dir fs1 slot now
  copy_save_files fs2 slot profile

/-- The `--load-save-file <name>` branch of `main`: list the directories of
`profile/Save Files` whose name contains `name`, sort descending by name
(Rust's `sort_by(|a, b| b.0.cmp(&a.0))`), and transfer the first match, when
any, into the profile. -/
def load_save_file_branch (fs : FS) (profile : FPath) (name : String) :
    Option FS := do
  let ms ← list_name_contains fs (profile ++ [FName.utf8 "Save Files"]) name
  let sorted := sortBy (fun a b => strLe b.1 a.1) ms
  match sorted.head? with
  | some m => copy_save_files fs m.2 profile
  | none => some fs

/-- The name of the dated slot.  The `chrono` formatting
`dated-%Y-%m-%d_%H%M%S` is abstracted as an injective rendering of the
timestamp. -/
def dated_name (now : Nat) : String := "dated-" ++ toString now

/-- The `--save-dated` branch of `main`. -/
def save_dated_branch (fs : FS) (profile : FPath) (now : Nat) : Option FS := do
  let (fs1, slots) ← ensure_slot fs profile now
  let slot := slots ++ [FName.utf8 (dated_name now)]
  let fs2 ← if is_dir fs1 slot then some fs1 else create_dir fs1 slot now
  copy_save_files fs2 profile slot

/-- The `--load-nth-newest-slot <n>` branch of `main`. -/
def load_nth_branch (fs : FS) (profile : FPath) (nth now : Nat) : Option FS := do
  let (fs1, found) ← find_newest_slot fs profile nth now
  match found with
  | some p => copy_save_files fs1 p profile
  | none => some fs1

/-- The `--delete-nth-newest-slot <n>` branch of `main`: delete the slot's
save files, then attempt to remove the directory; a removal failure is
logged (`Failed to remove directory`) and does not fail the branch. -/
def delete_nth_branch (fs : FS) (profile : FPath) (nth now : Nat) :
    Option (FS × List String) := do
  let (fs1, found) ← find_newest_slot fs profile nth now
  match found with
  | none => some (fs1, [])
  | some p => do
    let fs2 ← delete_save_files fs1 p
    match remove_dir fs2 p with
    | some fs3 => some (fs3, [])
    | none => some (fs2, ["Failed to remove directory"])

/-- One iteration of `main`'s per-profile loop: the seven flag branches, in
source order, aborting on the first error.  Only the dispatcher-level
messages that a claim mentions are collected in the log. -/
def process_profile (a : Args) (fs : FS) (profile : FPath) (now : Nat) :
    Option (FS × List String) := do
  let fsA ← match a.save with
    | some s => save_branch fs profile s now
    | none => some fs
  let fsB ← match a.load with
    | some s => load_branch fsA profile s now
    | none => some fsA
  let fsC ← match a.loadSaveFile with
    | some s => load_save_file_branch fsB profile s
    | none => some fsB
  let fsD ← if a.saveDated then save_dated_branch fsC profile now else some fsC
  let fsE ← if a.clearProfile then delete_save_files fsD profile else some fsD
  let fsF ← match a.loadNth with
    | some n => load_nth_branch fsE profile n now
    | none => some fsE
  match a.deleteNth with
  | some n => delete_nth_branch fsF profile n now
  | none => some (fsF, [])

/-- The fixed path suffix `Documents/Rockstar Games/GTA V` under the home
directory. -/
def base_of (home : FPath) : FPath :=
  home ++ [FName.utf8 "Documents", FName.utf8 "Rockstar Games", FName.utf8 "GTA V"]

/-- The `Profiles` directory under the base path. -/
def profiles_of (home : FPath) : FPath := base_of home ++ [FName.utf8 "Profiles"]

/-- Model of `main` after argument parsing: resolve the base path from the
`USERPROFILE` environment variable (absent = fatal error), soft-exit when
`Profiles` is missing, otherwise process every profile directory in turn. -/
def run_main (fs : FS) (userprofile : Option FPath) (a : Args) (now : Nat) :
    Option (FS × List String) := do
  let home ← userprofile
  let profiles := profiles_of home
  if is_dir fs profiles then do
    let entries ← read_dir fs profiles
    let existing := (entries.map (fun n => profiles ++ [n])).filter (fun p => is_dir fs p)
    existing.foldlM (fun st p => do
      let (fs2, lg2) ← process_profile a st.1 p now
      pure (fs2, st.2 ++ lg2)) (fs, ([] : List String))
  else
    some (fs, ["Missing profile directory"])

/-- Well-formed filesystem state: no two entries share a path. -/
def fsWf (fs : FS) : Prop := (fs.map Prod.fst).Nodup

instance (fs : FS) : Decidable (fsWf fs) :=
  inferInstanceAs (Decidable ((fs.map Prod.fst).Nodup))

/-- Names of the save files directly in `d`, per `list_save_files` (empty
when the listing fails). -/
def save_names (fs : FS) (d : FPath) : List String :=
  ((list_save_files fs d).getD []).map Prod.fst

/-- Shorthand for a UTF-8 file name, used by the concrete test states. -/
def u8 (s : String) : FName := FName.utf8 s

/-- Concrete home directory for the worked examples. -/
def home0 : FPath := [u8 "C"]

/-- Concrete profile directory `<home>/Documents/Rockstar Games/GTA V/Profiles/P`. -/
def prof0 : FPath := profiles_of home0 ++ [u8 "P"]

/-- Concrete state: one profile holding save files `SGTA001`, `SGTA002` and
an unrelated file. -/
def fs0 : FS :=
  [([u8 "C"], Node.dir 0),
   ([u8 "C", u8 "Documents"], Node.dir 0),
   ([u8 "C", u8 "Documents", u8 "Rockstar Games"], Node.dir 0),
   (base_of home0, Node.dir 0),
   (profiles_of home0, Node.dir 0),
   (prof0, Node.dir 0),
   (prof0 ++ [u8 "SGTA001"], Node.file "a"),
   (prof0 ++ [u8 "SGTA002"], Node.file "b"),
   (prof0 ++ [u8 "other.txt"], Node.file "x")]

/-- Arguments for `--save slot1`. -/
def argsSave : Args := Args.mk (some "slot1") none none false false none none

/-- Arguments for `--load slot1`. -/
def argsLoad : Args := Args.mk none (some "slot1") none false false none none

/-- Arguments for `--load-save-file x`. -/
def argsLsf : Args := Args.mk none none (some "x") false false none none

/-- Concrete directory used by the aliasing counterexample. -/
def cdir : FPath := [u8 "d"]

/-- Concrete state for the aliasing counterexample: a directory holding one
save file. -/
def fsc : FS := [([u8 "d"], Node.dir 0), ([u8 "d", u8 "SGTA001"], Node.file "x")]

/-- Concrete profile used by the slot-ranking examples. -/
def profW : FPath := [u8 "P"]

/-- The `Slots` directory of `profW`. -/
def slotsW : FPath := profW ++ [u8 "Slots"]

/-- Concrete state: two slots with distinct modification times. -/
def fsw : FS :=
  [(profW, Node.dir 0), (slotsW, Node.dir 0),
   (slotsW ++ [u8 "A"], Node.dir 5), (slotsW ++ [u8 "B"], Node.dir 9)]

/-- Concrete state: one slot whose directory also holds a non-save file, so
that removing the directory after deleting its save files must fail. -/
def fs7 : FS :=
  [(profW, Node.dir 0), (slotsW, Node.dir 0),
   (slotsW ++ [u8 "A"], Node.dir 5),
   (slotsW ++ [u8 "A", u8 "SGTA001"], Node.file "s"),
   (slotsW ++ [u8 "A", u8 "keep.txt"], Node.file "k")]

/-- Concrete state: the `Profiles` directory exists with one profile that
has no `Save Files` directory. -/
def fs6 : FS := [(profiles_of home0, Node.dir 0), (prof0, Node.dir 0)]

/-- Concrete state: a profile with a `Slots` directory and one save file,
used for loading a slot that does not exist. -/
def fsA : FS :=
  [(profiles_of home0, Node.dir 0), (prof0, Node.dir 0),
   (prof0 ++ [u8 "Slots"], Node.dir 0),
   (prof0 ++ [u8 "SGTA001"], Node.file "a")]

/-- Concrete state: a `Save Files` directory with three named save
directories, one of which holds a save file. -/
def fs8 : FS :=
  [(prof0, Node.dir 0),
   (prof0 ++ [u8 "Save Files"], Node.dir 0),
   (prof0 ++ [u8 "Save Files", u8 "abc1"], Node.dir 0),
   (prof0 ++ [u8 "Save Files", u8 "abc2"], Node.dir 0),
   (prof0 ++ [u8 "Save Files", u8 "zzz"], Node.dir 0),
   (prof0 ++ [u8 "Save Files", u8 "abc2", u8 "SGTA009"], Node.file "w")]

/-- The state `fs7` after its slot's save file has been deleted. -/
def fs7del : FS :=
  [(profW, Node.dir 0), (slotsW, Node.dir 0),
   (slotsW ++ [u8 "A"], Node.dir 5),
   (slotsW ++ [u8 "A", u8 "keep.txt"], Node.file "k")]

/-- Concrete state with a non-UTF-8-named entry next to a save file. -/
def fsN : FS :=
  [([u8 "d"], Node.dir 0),
   ([u8 "d", FName.nonUtf8 7], Node.file "z"),
   ([u8 "d", u8 "SGTA001"], Node.file "a")]

/-- The state `fsN` after deleting the save files of `d`. -/
def fsN1 : FS :=
  [([u8 "d"], Node.dir 0),
   ([u8 "d", FName.nonUtf8 7], Node.file "z")]

/-- A lookup misses exactly when no entry has the given path. -/
theorem fsLookup_eq_none_iff (fs : FS) (q : FPath) :
    fsLookup fs q = none ↔ ∀ e ∈ fs, e.1 ≠ q := by
  induction fs with
  | nil => simp [fsLookup]
  | cons e rest ih =>
    by_cases h : e.1 = q
    · simp [fsLookup, h]
    · simp [fsLookup, h, ih]

/-- A lookup hits exactly when some entry has the given path. -/
theorem fsLookup_isSome_iff (fs : FS) (q : FPath) :
    (fsLookup fs q).isSome ↔ ∃ e ∈ fs, e.1 = q := by
  induction fs with
  | nil => simp [fsLookup]
  | cons e rest ih =>
    by_cases h : e.1 = q
    · simp [fsLookup, h]
    · simp [fsLookup, h, ih]

/-- Lookup distributes over appending filesystem entries. -/
theorem fsLookup_append (xs ys : FS) (q : FPath) :
    fsLookup (xs ++ ys) q =
      match fsLookup xs q with
      | some v => some v
      | none => fsLookup ys q := by
  induction xs with
  | nil => simp [fsLookup]
  | cons e rest ih =>
    by_cases h : e.1 = q <;> simp [fsLookup, h, ih]

/-- Lookup through a filter whose predicate depends only on the path. -/
theorem fsLookup_filterKey (f : FPath → Bool) (fs : FS) (q : FPath) :
    fsLookup (fs.filter (fun e => f e.1)) q =
      if f q then fsLookup fs q else none := by
  induction fs with
  | nil => simp [fsLookup]
  | cons e rest ih =>
    by_cases h : e.1 = q
    · subst h
      by_cases hf : f e.1 <;> simp [List.filter_cons, hf, fsLookup, ih]
    · by_cases hf : f e.1 <;> simp [List.filter_cons, hf, fsLookup, h, ih]

/-- Appending a single entry only affects lookups at its path. -/
theorem fsLookup_snoc (fs : FS) (k : FPath) (v : Node) (q : FPath) :
    fsLookup (fs ++ [(k, v)]) q =
      match fsLookup fs q with
      | some w => some w
      | none => if k = q then some v else none := by
  rw [fsLookup_append]
  cases fsLookup fs q <;> simp [fsLookup]

/-- The direct child of `p` named `n` resolves to that name. -/
theorem childOf_append (p : FPath) (n : FName) : childOf p (p ++ [n]) = some n := by
  simp [childOf]

/-- Any path recognised as a direct child of `p` is `p` extended by the
returned name. -/
theorem childOf_eq_some {p q : FPath} {n : FName} (h : childOf p q = some n) :
    q = p ++ [n] := by
  unfold childOf at h
  by_cases hd : q.dropLast = p
  · rw [if_pos hd] at h
    obtain ⟨ys, rfl⟩ := List.getLast?_eq_some_iff.mp h
    simp at hd
    rw [hd]
  · rw [if_neg hd] at h
    exact absurd h (by simp)

/-- Reading a directory succeeds exactly on directories. -/
theorem read_dir_isSome (fs : FS) (p : FPath) :
    (read_dir fs p).isSome = is_dir fs p := by
  unfold read_dir
  by_cases hd : is_dir fs p <;> simp [hd]

/-- A name is listed by `read_dir` exactly when some entry lies at that
child path. -/
theorem read_dir_mem {fs : FS} {p : FPath} {l : List FName}
    (h : read_dir fs p = some l) (n : FName) :
    n ∈ l ↔ ∃ e ∈ fs, e.1 = p ++ [n] := by
  unfold read_dir at h
  by_cases hd : is_dir fs p
  · rw [if_pos hd] at h
    obtain rfl : fs.filterMap (fun e => childOf p e.1) = l := by injection h
    rw [List.mem_filterMap]
    constructor
    · rintro ⟨e, he, hm⟩
      exact ⟨e, he, childOf_eq_some hm⟩
    · rintro ⟨e, he, hq⟩
      exact ⟨e, he, by rw [hq]; exact childOf_append p n⟩
  · rw [if_neg hd] at h
    exact absurd h (by simp)

/-- The loop body keeps exactly the accepted UTF-8-named children. -/
theorem match_entry_eq_some {path : FPath} {p : FPath → Bool} {m : String → Bool}
    {n : FName} {s : String} {q : FPath} :
    match_entry path p m n = some (s, q) ↔
      n = FName.utf8 s ∧ q = path ++ [FName.utf8 s] ∧ p q = true ∧ m s = true := by
  cases n with
  | utf8 s' =>
    constructor
    · intro h
      simp only [match_entry] at h
      by_cases hc : p (path ++ [FName.utf8 s']) && m s'
      · rw [if_pos hc] at h
        rw [Bool.and_eq_true] at hc
        injection h with h'
        rw [Prod.mk.injEq] at h'
        obtain ⟨rfl, rfl⟩ := h'
        exact ⟨rfl, rfl, hc.1, hc.2⟩
      · rw [if_neg hc] at h
        exact absurd h (by simp)
    · rintro ⟨h1, rfl, hp, hm⟩
      injection h1 with h1'
      subst h1'
      simp only [match_entry]
      rw [if_pos (by rw [hp, hm]; rfl)]
  | nonUtf8 k =>
    constructor
    · intro h
      exact absurd h (by simp [match_entry])
    · rintro ⟨h1, _⟩
      exact absurd h1 (by simp)

/-- Characterisation of `find_matching`: an output pair `(s, q)` appears
exactly when `q` is the child of `path` named by the UTF-8 string `s`, an
entry exists there, and both predicates accept it. -/
theorem find_matching_mem {fs : FS} {path : FPath} {p : FPath → Bool}
    {m : String → Bool} {l : List (String × FPath)}
    (h : find_matching fs path p m = some l) (s : String) (q : FPath) :
    (s, q) ∈ l ↔
      q = path ++ [FName.utf8 s] ∧ (fsLookup fs q).isSome ∧ p q = true ∧ m s = true := by
  unfold find_matching at h
  cases hr : read_dir fs path with
  | none => rw [hr] at h; exact absurd h (by simp)
  | some entries =>
    rw [hr] at h
    simp only [Option.bind_eq_bind, Option.some_bind] at h
    obtain rfl : entries.filterMap _ = l := by injection h
    rw [List.mem_filterMap]
    constructor
    · rintro ⟨n, hn, hg⟩
      obtain ⟨rfl, rfl, hp, hm⟩ := match_entry_eq_some.mp hg
      obtain ⟨e, he, hep⟩ := (read_dir_mem hr _).mp hn
      exact ⟨rfl, (fsLookup_isSome_iff fs _).mpr ⟨e, he, hep⟩, hp, hm⟩
    · rintro ⟨rfl, hsome, hp, hm⟩
      refine ⟨FName.utf8 s, ?_, ?_⟩
      · exact (read_dir_mem hr _).mpr ((fsLookup_isSome_iff fs _).mp hsome)
      · exact match_entry_eq_some.mpr ⟨rfl, rfl, hp, hm⟩

/-- The `find_matching` scan succeeds exactly on directories, whatever the
predicates and whatever entries are present. -/
theorem find_matching_isSome (fs : FS) (path : FPath) (p : FPath → Bool)
    (m : String → Bool) :
    (find_matching fs path p m).isSome = is_dir fs path := by
  unfold find_matching
  cases hr : read_dir fs path with
  | none =>
    have := read_dir_isSome fs path
    rw [hr] at this
    simp at this ⊢
    rw [← this]
  | some entries =>
    have := read_dir_isSome fs path
    rw [hr] at this
    simp at this ⊢
    rw [← this]

/-- Directory test in terms of lookup. -/
theorem is_dir_iff (fs : FS) (p : FPath) :
    is_dir fs p = true ↔ ∃ mt, fsLookup fs p = some (Node.dir mt) := by
  unfold is_dir
  cases h : fsLookup fs p with
  | none => simp
  | some nd => cases nd <;> simp

/-- File test in terms of lookup. -/
theorem is_file_iff (fs : FS) (p : FPath) :
    is_file fs p = true ↔ ∃ c, fsLookup fs p = some (Node.file c) := by
  unfold is_file
  cases h : fsLookup fs p with
  | none => simp
  | some nd => cases nd <;> simp

/-- Extending the same directory by two names gives the same path only for
equal names. -/
theorem snoc_utf8_inj {t : FPath} {a b : String}
    (h : t ++ [FName.utf8 a] = t ++ [FName.utf8 b]) : a = b := by
  have h2 := List.append_cancel_left h
  injection h2 with h3 _
  injection h3

/-- Appending an entry with a different path does not change a lookup. -/
theorem fsLookup_snoc_ne {k q : FPath} (fs : FS) (v : Node) (h : k ≠ q) :
    fsLookup (fs ++ [(k, v)]) q = fsLookup fs q := by
  rw [fsLookup_snoc]
  cases fsLookup fs q <;> simp [h]

/-- With a well-formed state, the names listed by `read_dir` are distinct. -/
theorem read_dir_nodup {fs : FS} {p : FPath} {l : List FName}
    (hwf : fsWf fs) (h : read_dir fs p = some l) : l.Nodup := by
  unfold read_dir at h
  by_cases hd : is_dir fs p
  · rw [if_pos hd] at h
    obtain rfl : fs.filterMap (fun e => childOf p e.1) = l := by injection h
    have heq : fs.filterMap (fun e => childOf p e.1) =
        (fs.map Prod.fst).filterMap (childOf p) := by
      rw [List.filterMap_map]
      rfl
    rw [heq]
    exact hwf.filterMap (fun a a' b hb hb' =>
      (childOf_eq_some hb).trans (childOf_eq_some hb').symm)
  · rw [if_neg hd] at h
    exact absurd h (by simp)

/-- With a well-formed state, the names in a `find_matching` output are
distinct. -/
theorem find_matching_names_nodup {fs : FS} {path : FPath} {p : FPath → Bool}
    {m : String → Bool} {l : List (String × FPath)} (hwf : fsWf fs)
    (h : find_matching fs path p m = some l) : (l.map Prod.fst).Nodup := by
  unfold find_matching at h
  cases hr : read_dir fs path with
  | none => rw [hr] at h; exact absurd h (by simp)
  | some entries =>
    rw [hr] at h
    simp only [Option.bind_eq_bind, Option.some_bind] at h
    obtain rfl : entries.filterMap _ = l := by injection h
    have hnd := read_dir_nodup hwf hr
    rw [List.map_filterMap]
    refine hnd.filterMap ?_
    intro a a' b hb hb'
    rw [Option.mem_def, Option.map_eq_some'] at hb hb'
    obtain ⟨⟨xs, xq⟩, hx, hxb⟩ := hb
    obtain ⟨⟨ys, yq⟩, hy, hyb⟩ := hb'
    obtain ⟨ha, -, -, -⟩ := match_entry_eq_some.mp hx
    obtain ⟨ha', -, -, -⟩ := match_entry_eq_some.mp hy
    simp at hxb hyb
    rw [ha, ha', hxb, hyb]

/-- A successful run of the deletion loop filters out exactly the entries at
the listed paths. -/
theorem foldlM_remove_eq :
    ∀ (ps : List (String × FPath)) (acc out : FS),
      List.foldlM (fun a sf => remove_file a sf.2) acc ps = some out →
      out = acc.filter (fun e => !decide (e.1 ∈ ps.map Prod.snd)) := by
  intro ps
  induction ps with
  | nil =>
    intro acc out h
    rw [List.foldlM_nil] at h
    obtain rfl : acc = out := by injection h
    simp
  | cons sf ps ih =>
    intro acc out h
    rw [List.foldlM_cons] at h
    cases hrm : remove_file acc sf.2 with
    | none => rw [hrm] at h; exact absurd h (by simp)
    | some a1 =>
      rw [hrm] at h
      simp only [Option.bind_eq_bind, Option.some_bind] at h
      have hout := ih a1 out h
      unfold remove_file at hrm
      by_cases hf : is_file acc sf.2
      · rw [if_pos hf] at hrm
        obtain rfl : acc.filter _ = a1 := by injection hrm
        rw [hout, List.filter_filter]
        refine List.filter_congr ?_
        intro e he
        by_cases h1 : e.1 = sf.2 <;> by_cases h2 : e.1 ∈ ps.map Prod.snd <;>
          simp [h1, h2]
      · rw [if_neg hf] at hrm
        exact absurd hrm (by simp)

/-- A successful `delete_save_files` removes exactly the listed save files. -/
theorem delete_save_files_eq {fs : FS} {path : FPath} {fs1 : FS}
    (h : delete_save_files fs path = some fs1) :
    ∃ saves, list_save_files fs path = some saves ∧
      fs1 = fs.filter (fun e => !decide (e.1 ∈ saves.map Prod.snd)) := by
  unfold delete_save_files at h
  cases hl : list_save_files fs path with
  | none => rw [hl] at h; exact absurd h (by simp)
  | some saves =>
    rw [hl] at h
    simp only [Option.bind_eq_bind, Option.some_bind] at h
    exact ⟨saves, rfl, foldlM_remove_eq saves fs fs1 h⟩

/-- Lookup after a key-predicate filter, stated for the deletion filter. -/
theorem fsLookup_filter_mem (fs : FS) (qs : List FPath) (q : FPath) :
    fsLookup (fs.filter (fun e => !decide (e.1 ∈ qs))) q =
      if q ∈ qs then none else fsLookup fs q := by
  have h := fsLookup_filterKey (fun k => !decide (k ∈ qs)) fs q
  rw [h]
  by_cases hq : q ∈ qs <;> simp [hq]

/-- A hit survives appending an entry. -/
theorem fsLookup_snoc_of_some {fs : FS} {q : FPath} {w : Node} (k : FPath)
    (v : Node) (h : fsLookup fs q = some w) :
    fsLookup (fs ++ [(k, v)]) q = some w := by
  rw [fsLookup_snoc, h]

/-- Invariant of the copy loop: a successful run appends exactly one save
file per listed source entry at the destination and changes no other
lookup. -/
theorem foldlM_copy_spec (t : FPath) :
    ∀ (saves : List (String × FPath)) (acc out : FS),
      List.foldlM (fun a sf =>
        match sf.2.getLast? with
        | some n => fs_copy a sf.2 (t ++ [n])
        | none => some a) acc saves = some out →
      (∀ sf ∈ saves, ∃ c, sf.2.getLast? = some (FName.utf8 sf.1) ∧
          fsLookup acc sf.2 = some (Node.file c)) →
      (∀ sf ∈ saves, fsLookup acc (t ++ [FName.utf8 sf.1]) = none ∨
          ∃ mt, fsLookup acc (t ++ [FName.utf8 sf.1]) = some (Node.dir mt)) →
      (saves.map Prod.fst).Nodup →
      is_dir acc t = true →
      (∀ q, (∀ sf ∈ saves, q ≠ t ++ [FName.utf8 sf.1]) →
          fsLookup out q = fsLookup acc q) ∧
      (∀ sf ∈ saves, ∃ c,
          fsLookup out (t ++ [FName.utf8 sf.1]) = some (Node.file c)) := by
  intro saves
  induction saves with
  | nil =>
    intro acc out h _ _ _ _
    rw [List.foldlM_nil] at h
    obtain rfl : acc = out := by injection h
    exact ⟨fun q _ => rfl, fun sf hsf => absurd hsf (by simp)⟩
  | cons sf saves ih =>
    intro acc out h hform hnd hnod hdirt
    simp only [List.foldlM_cons] at h
    obtain ⟨c, hlast, hsrc⟩ := hform sf (List.mem_cons_self sf saves)
    rw [hlast] at h
    simp only [Option.bind_eq_bind, Option.some_bind] at h
    rw [List.map_cons] at hnod
    obtain ⟨hnotmem, hnodt⟩ := List.nodup_cons.mp hnod
    have hne_tail : ∀ sf' ∈ saves, sf.1 ≠ sf'.1 := by
      intro sf' hsf' hEq
      exact hnotmem (hEq ▸ List.mem_map_of_mem Prod.fst hsf')
    rcases hnd sf (List.mem_cons_self sf saves) with hdst | ⟨mt, hdst⟩
    · have hdl : (t ++ [FName.utf8 sf.1]).dropLast = t := by simp
      have hc1 : fs_copy acc sf.2 (t ++ [FName.utf8 sf.1]) =
          some (acc ++ [(t ++ [FName.utf8 sf.1], Node.file c)]) := by
        unfold fs_copy
        rw [hsrc, hdst, hdl, hdirt]
        rfl
      rw [hc1] at h
      simp only [Option.some_bind] at h
      have hknet : ∀ sf' ∈ saves,
          t ++ [FName.utf8 sf.1] ≠ t ++ [FName.utf8 sf'.1] := by
        intro sf' hsf' hEq
        exact hne_tail sf' hsf' (snoc_utf8_inj hEq)
      have hform' : ∀ sf' ∈ saves, ∃ c', sf'.2.getLast? = some (FName.utf8 sf'.1) ∧
          fsLookup (acc ++ [(t ++ [FName.utf8 sf.1], Node.file c)]) sf'.2 =
            some (Node.file c') := by
        intro sf' hsf'
        obtain ⟨c', hl', hs'⟩ := hform sf' (List.mem_cons_of_mem _ hsf')
        exact ⟨c', hl', fsLookup_snoc_of_some _ _ hs'⟩
      have hnd' : ∀ sf' ∈ saves,
          fsLookup (acc ++ [(t ++ [FName.utf8 sf.1], Node.file c)])
            (t ++ [FName.utf8 sf'.1]) = none ∨
          ∃ mt', fsLookup (acc ++ [(t ++ [FName.utf8 sf.1], Node.file c)])
            (t ++ [FName.utf8 sf'.1]) = some (Node.dir mt') := by
        intro sf' hsf'
        rcases hnd sf' (List.mem_cons_of_mem _ hsf') with h0 | ⟨mt', h0⟩
        · left
          rw [fsLookup_snoc_ne acc _ (hknet sf' hsf')]
          exact h0
        · right
          refine ⟨mt', ?_⟩
          rw [fsLookup_snoc_ne acc _ (hknet sf' hsf')]
          exact h0
      have hdirt' : is_dir (acc ++ [(t ++ [FName.utf8 sf.1], Node.file c)]) t = true := by
        rw [is_dir_iff]
        obtain ⟨mt0, hmt0⟩ := (is_dir_iff acc t).mp hdirt
        exact ⟨mt0, fsLookup_snoc_of_some _ _ hmt0⟩
      obtain ⟨P1, P2⟩ := ih (acc ++ [(t ++ [FName.utf8 sf.1], Node.file c)]) out h
        hform' hnd' hnodt hdirt'
      constructor
      · intro q hq
        have hq0 : q ≠ t ++ [FName.utf8 sf.1] := hq sf (List.mem_cons_self sf saves)
        rw [P1 q (fun sf' hsf' => hq sf' (List.mem_cons_of_mem _ hsf'))]
        exact fsLookup_snoc_ne acc _ (Ne.symm hq0)
      · intro sf' hsf'
        rcases List.mem_cons.mp hsf' with rfl | hmem
        · refine ⟨c, ?_⟩
          rw [P1 (t ++ [FName.utf8 sf'.1]) (fun sf'' hsf'' hEq =>
            hne_tail sf'' hsf'' (snoc_utf8_inj hEq))]
          rw [fsLookup_snoc, hdst]
          simp
        · exact P2 sf' hmem
    · have hc0 : fs_copy acc sf.2 (t ++ [FName.utf8 sf.1]) = none := by
        unfold fs_copy
        rw [hsrc, hdst]
      rw [hc0] at h
      exact absurd h (by simp)


/-- Membership in `save_names` under a successful listing. -/
theorem save_names_mem {fs : FS} {d : FPath} {l : List (String × FPath)}
    (h : list_save_files fs d = some l) (s : String) :
    s ∈ save_names fs d ↔
      (is_file fs (d ++ [FName.utf8 s]) = true ∧ str_starts s "SGTA" = true) := by
  unfold save_names
  rw [h]
  simp only [Option.getD_some]
  rw [List.mem_map]
  have hfm : find_matching fs d (fun q => is_file fs q)
      (fun n => str_starts n "SGTA") = some l := h
  constructor
  · rintro ⟨⟨s', q⟩, hmem, hfst⟩
    obtain rfl : s' = s := hfst
    obtain ⟨hq, -, hfile, hst⟩ := (find_matching_mem hfm s' q).mp hmem
    exact ⟨by rw [← hq]; exact hfile, hst⟩
  · rintro ⟨hfile, hst⟩
    refine ⟨(s, d ++ [FName.utf8 s]), ?_, rfl⟩
    refine (find_matching_mem hfm s _).mpr ⟨rfl, ?_, hfile, hst⟩
    rw [is_file_iff] at hfile
    obtain ⟨c, hc⟩ := hfile
    rw [hc]
    rfl

/-- C1: for a well-formed state and non-overlapping source and destination,
a successful `copy_save_files` first deletes the destination's save files
and then copies the source's, so that afterwards the save-file names
directly in the destination are exactly those directly in the source. -/
theorem copy_save_files_sets_dest_names {fs : FS} {f t : FPath} {fs' : FS}
    (hwf : fsWf fs) (hne : f ≠ t) (h : copy_save_files fs f t = some fs') :
    ∀ s, s ∈ save_names fs' t ↔ s ∈ save_names fs f := by
  unfold copy_save_files at h
  cases hdel : delete_save_files fs t with
  | none => rw [hdel] at h; exact absurd h (by simp)
  | some fs1 =>
    rw [hdel] at h
    simp only [Option.bind_eq_bind, Option.some_bind] at h
    cases hls : list_save_files fs1 f with
    | none => rw [hls] at h; exact absurd h (by simp)
    | some saves =>
      rw [hls] at h
      simp only [Option.some_bind] at h
      obtain ⟨dsaves, hld, hfs1⟩ := delete_save_files_eq hdel
      have hldm : find_matching fs t (fun q => is_file fs q)
          (fun n => str_starts n "SGTA") = some dsaves := hld
      have hlsm : find_matching fs1 f (fun q => is_file fs1 q)
          (fun n => str_starts n "SGTA") = some saves := hls
      have hlook1 : ∀ q, fsLookup fs1 q =
          if q ∈ dsaves.map Prod.snd then none else fsLookup fs q := by
        intro q
        rw [hfs1]
        exact fsLookup_filter_mem fs _ q
      have hdpath : ∀ q ∈ dsaves.map Prod.snd, ∃ s, q = t ++ [FName.utf8 s] ∧
          is_file fs q = true ∧ str_starts s "SGTA" = true := by
        intro q hq
        rw [List.mem_map] at hq
        obtain ⟨⟨s, q'⟩, hmem, hq'⟩ := hq
        obtain ⟨h1, -, h3, h4⟩ := (find_matching_mem hldm s q').mp hmem
        refine ⟨s, ?_, ?_, h4⟩
        · rw [← hq']
          exact h1
        · rw [← hq']
          exact h3
      have ht_not_in : t ∉ dsaves.map Prod.snd := by
        intro hq
        obtain ⟨s, hqe, -, -⟩ := hdpath t hq
        simp at hqe
      have hdirt_fs : is_dir fs t = true := by
        have hi := find_matching_isSome fs t (fun q => is_file fs q)
          (fun n => str_starts n "SGTA")
        rw [hldm] at hi
        exact hi.symm
      have hdirt1 : is_dir fs1 t = true := by
        rw [is_dir_iff]
        obtain ⟨mt0, h0⟩ := (is_dir_iff fs t).mp hdirt_fs
        refine ⟨mt0, ?_⟩
        rw [hlook1 t, if_neg ht_not_in]
        exact h0
      have hfchild : ∀ (x : FName), f ++ [x] ∉ dsaves.map Prod.snd := by
        intro x hq
        obtain ⟨s, hqe, -, -⟩ := hdpath _ hq
        apply hne
        have hdl := congrArg List.dropLast hqe
        simpa using hdl
      have hwf1 : fsWf fs1 := by
        rw [hfs1]
        exact List.Nodup.sublist (List.Sublist.map Prod.fst (List.filter_sublist fs)) hwf
      have hsmem : ∀ s q, (s, q) ∈ saves ↔
          (q = f ++ [FName.utf8 s] ∧ is_file fs q = true ∧
            str_starts s "SGTA" = true) := by
        intro s q
        rw [find_matching_mem hlsm s q]
        constructor
        · rintro ⟨rfl, -, hf1, hst⟩
          refine ⟨rfl, ?_, hst⟩
          rw [is_file_iff] at hf1 ⊢
          obtain ⟨c, hc⟩ := hf1
          rw [hlook1, if_neg (hfchild _)] at hc
          exact ⟨c, hc⟩
        · rintro ⟨rfl, hf1, hst⟩
          obtain ⟨c, hc⟩ := (is_file_iff fs _).mp hf1
          have hc1 : fsLookup fs1 (f ++ [FName.utf8 s]) = some (Node.file c) := by
            rw [hlook1, if_neg (hfchild _)]
            exact hc
          refine ⟨rfl, by rw [hc1]; rfl, ?_, hst⟩
          rw [is_file_iff]
          exact ⟨c, hc1⟩
      have hform : ∀ sf ∈ saves, ∃ c, sf.2.getLast? = some (FName.utf8 sf.1) ∧
          fsLookup fs1 sf.2 = some (Node.file c) := by
        intro sf hsf
        obtain ⟨s, q⟩ := sf
        obtain ⟨h1, h2, -⟩ := (hsmem s q).mp hsf
        obtain ⟨c, hc⟩ := (is_file_iff fs q).mp h2
        refine ⟨c, ?_, ?_⟩
        · rw [h1]
          exact List.getLast?_concat _
        · rw [h1] at hc ⊢
          rw [hlook1, if_neg (hfchild _)]
          exact hc
      have hnd : ∀ sf ∈ saves, fsLookup fs1 (t ++ [FName.utf8 sf.1]) = none ∨
          ∃ mt, fsLookup fs1 (t ++ [FName.utf8 sf.1]) = some (Node.dir mt) := by
        intro sf hsf
        obtain ⟨s, q⟩ := sf
        obtain ⟨-, -, hst⟩ := (hsmem s q).mp hsf
        rw [hlook1]
        by_cases hmem : (t ++ [FName.utf8 s]) ∈ dsaves.map Prod.snd
        · left
          rw [if_pos hmem]
        · rw [if_neg hmem]
          cases hv : fsLookup fs (t ++ [FName.utf8 s]) with
          | none => exact Or.inl rfl
          | some nd =>
            cases nd with
            | dir mt => exact Or.inr ⟨mt, rfl⟩
            | file c =>
              exfalso
              apply hmem
              rw [List.mem_map]
              refine ⟨(s, t ++ [FName.utf8 s]), ?_, rfl⟩
              refine (find_matching_mem hldm s _).mpr ⟨rfl, by rw [hv]; rfl, ?_, hst⟩
              rw [is_file_iff]
              exact ⟨c, hv⟩
      have hnodsaves : (saves.map Prod.fst).Nodup := find_matching_names_nodup hwf1 hlsm
      obtain ⟨P1, P2⟩ := foldlM_copy_spec t saves fs1 fs' h hform hnd hnodsaves hdirt1
      have hdirt' : is_dir fs' t = true := by
        rw [is_dir_iff]
        obtain ⟨mt0, h0⟩ := (is_dir_iff fs1 t).mp hdirt1
        refine ⟨mt0, ?_⟩
        rw [P1 t (fun sf hsf hEq => by simp at hEq)]
        exact h0
      obtain ⟨l', hl'⟩ : ∃ l', list_save_files fs' t = some l' := by
        have hi := find_matching_isSome fs' t (fun q => is_file fs' q)
          (fun n => str_starts n "SGTA")
        rw [hdirt'] at hi
        exact Option.isSome_iff_exists.mp hi
      have hdirf1 : is_dir fs1 f = true := by
        have hi := find_matching_isSome fs1 f (fun q => is_file fs1 q)
          (fun n => str_starts n "SGTA")
        rw [hlsm] at hi
        exact hi.symm
      have hf_not_in : f ∉ dsaves.map Prod.snd := by
        intro hq
        obtain ⟨mt0, h0⟩ := (is_dir_iff fs1 f).mp hdirf1
        rw [hlook1, if_pos hq] at h0
        exact absurd h0 (by simp)
      have hdirf : is_dir fs f = true := by
        rw [is_dir_iff]
        obtain ⟨mt0, h0⟩ := (is_dir_iff fs1 f).mp hdirf1
        rw [hlook1, if_neg hf_not_in] at h0
        exact ⟨mt0, h0⟩
      obtain ⟨lf, hlf⟩ : ∃ lf, list_save_files fs f = some lf := by
        have hi := find_matching_isSome fs f (fun q => is_file fs q)
          (fun n => str_starts n "SGTA")
        rw [hdirf] at hi
        exact Option.isSome_iff_exists.mp hi
      intro s
      rw [save_names_mem hl' s, save_names_mem hlf s]
      constructor
      · rintro ⟨hf', hst⟩
        by_cases hmem : s ∈ saves.map Prod.fst
        · rw [List.mem_map] at hmem
          obtain ⟨⟨s', q⟩, hmemq, hfst⟩ := hmem
          obtain rfl : s' = s := hfst
          obtain ⟨hq1, h2, -⟩ := (hsmem s' q).mp hmemq
          refine ⟨?_, hst⟩
          rw [hq1] at h2
          exact h2
        · exfalso
          have havoid : ∀ sf ∈ saves, t ++ [FName.utf8 s] ≠ t ++ [FName.utf8 sf.1] := by
            intro sf hsf hEq
            exact hmem ((snoc_utf8_inj hEq) ▸ List.mem_map_of_mem Prod.fst hsf)
          obtain ⟨c, hc⟩ := (is_file_iff fs' _).mp hf'
          rw [P1 _ havoid] at hc
          rw [hlook1] at hc
          by_cases hdm : (t ++ [FName.utf8 s]) ∈ dsaves.map Prod.snd
          · rw [if_pos hdm] at hc
            exact absurd hc (by simp)
          · rw [if_neg hdm] at hc
            apply hdm
            rw [List.mem_map]
            refine ⟨(s, t ++ [FName.utf8 s]), ?_, rfl⟩
            refine (find_matching_mem hldm s _).mpr ⟨rfl, by rw [hc]; rfl, ?_, hst⟩
            rw [is_file_iff]
            exact ⟨c, hc⟩
      · rintro ⟨hff, hst⟩
        have hmem : (s, f ++ [FName.utf8 s]) ∈ saves :=
          (hsmem s _).mpr ⟨rfl, hff, hst⟩
        obtain ⟨c, hc⟩ := P2 (s, f ++ [FName.utf8 s]) hmem
        refine ⟨?_, hst⟩
        rw [is_file_iff]
        exact ⟨c, hc⟩

/-- The path returned by `ensure_slot` is always `path/Slots`. -/
theorem ensure_slot_eq {fs : FS} {path : FPath} {now : Nat} {fs1 : FS}
    {slots : FPath} (h : ensure_slot fs path now = some (fs1, slots)) :
    slots = path ++ [FName.utf8 "Slots"] := by
  unfold ensure_slot at h
  by_cases hd : is_dir fs (path ++ [FName.utf8 "Slots"])
  · rw [if_pos hd] at h
    injection h with h'
    exact (congrArg Prod.snd h').symm
  · rw [if_neg hd] at h
    cases hc : create_dir fs (path ++ [FName.utf8 "Slots"]) now with
    | none => rw [hc] at h; exact absurd h (by simp)
    | some fs2 =>
      rw [hc] at h
      injection h with h'
      exact (congrArg Prod.snd h').symm

/-- After `ensure_slot`, the `Slots` directory exists. -/
theorem ensure_slot_is_dir {fs : FS} {path : FPath} {now : Nat} {fs1 : FS}
    {slots : FPath} (h : ensure_slot fs path now = some (fs1, slots)) :
    is_dir fs1 slots = true := by
  have hs := ensure_slot_eq h
  subst hs
  unfold ensure_slot at h
  by_cases hd : is_dir fs (path ++ [FName.utf8 "Slots"])
  · rw [if_pos hd] at h
    injection h with h'
    obtain rfl : fs = fs1 := congrArg Prod.fst h'
    exact hd
  · rw [if_neg hd] at h
    cases hc : create_dir fs (path ++ [FName.utf8 "Slots"]) now with
    | none => rw [hc] at h; exact absurd h (by simp)
    | some fs2 =>
      rw [hc] at h
      injection h with h'
      obtain rfl : fs2 = fs1 := congrArg Prod.fst h'
      unfold create_dir at hc
      by_cases hsome : (fsLookup fs (path ++ [FName.utf8 "Slots"])).isSome
      · rw [if_pos hsome] at hc
        exact absurd hc (by simp)
      · rw [if_neg hsome] at hc
        by_cases hpar : is_dir fs (path ++ [FName.utf8 "Slots"]).dropLast
        · rw [if_pos hpar] at hc
          obtain rfl : fs ++ [(path ++ [FName.utf8 "Slots"], Node.dir now)] = fs2 := by
            injection hc
          rw [is_dir_iff]
          refine ⟨now, ?_⟩
          rw [fsLookup_snoc, Option.not_isSome_iff_eq_none.mp hsome]
          simp
        · rw [if_neg hpar] at hc
          exact absurd hc (by simp)

/-- `create_dir` preserves well-formedness. -/
theorem create_dir_wf {fs : FS} {p : FPath} {now : Nat} {fs1 : FS}
    (hwf : fsWf fs) (h : create_dir fs p now = some fs1) : fsWf fs1 := by
  unfold create_dir at h
  by_cases hsome : (fsLookup fs p).isSome
  · rw [if_pos hsome] at h
    exact absurd h (by simp)
  · rw [if_neg hsome] at h
    by_cases hpar : is_dir fs p.dropLast
    · rw [if_pos hpar] at h
      obtain rfl : fs ++ [(p, Node.dir now)] = fs1 := by injection h
      have hnot : p ∉ fs.map Prod.fst := by
        intro hmem
        apply hsome
        rw [fsLookup_isSome_iff]
        rw [List.mem_map] at hmem
        obtain ⟨e, he, hep⟩ := hmem
        exact ⟨e, he, hep⟩
      unfold fsWf at hwf ⊢
      rw [List.map_append]
      simp [List.nodup_append, hwf, hnot]
    · rw [if_neg hpar] at h
      exact absurd h (by simp)

/-- `ensure_slot` preserves well-formedness. -/
theorem ensure_slot_wf {fs : FS} {path : FPath} {now : Nat} {fs1 : FS}
    {slots : FPath} (hwf : fsWf fs) (h : ensure_slot fs path now = some (fs1, slots)) :
    fsWf fs1 := by
  unfold ensure_slot at h
  by_cases hd : is_dir fs (path ++ [FName.utf8 "Slots"])
  · rw [if_pos hd] at h
    injection h with h'
    obtain rfl : fs = fs1 := congrArg Prod.fst h'
    exact hwf
  · rw [if_neg hd] at h
    cases hc : create_dir fs (path ++ [FName.utf8 "Slots"]) now with
    | none => rw [hc] at h; exact absurd h (by simp)
    | some fs2 =>
      rw [hc] at h
      injection h with h'
      obtain rfl : fs2 = fs1 := congrArg Prod.fst h'
      exact create_dir_wf hwf hc

/-- Overwriting one path leaves lookups at other paths unchanged. -/
theorem fsLookup_overwrite_ne {dst q : FPath} (fs : FS) (c : String)
    (h : dst ≠ q) :
    fsLookup (fs.map (fun e => if e.1 = dst then (dst, Node.file c) else e)) q =
      fsLookup fs q := by
  induction fs with
  | nil => simp [fsLookup]
  | cons e rest ih =>
    rw [List.map_cons]
    by_cases hed : e.1 = dst
    · have he_ne : e.1 ≠ q := by rw [hed]; exact h
      rw [if_pos hed]
      unfold fsLookup
      rw [if_neg h, if_neg he_ne]
      exact ih
    · rw [if_neg hed]
      unfold fsLookup
      by_cases heq : e.1 = q
      · rw [if_pos heq, if_pos heq]
      · rw [if_neg heq, if_neg heq]
        exact ih

/-- A successful `fs::copy` changes no lookup away from its destination. -/
theorem fs_copy_lookup_ne {fs : FS} {src dst : FPath} {fs' : FS}
    (h : fs_copy fs src dst = some fs') {q : FPath} (hq : dst ≠ q) :
    fsLookup fs' q = fsLookup fs q := by
  cases hs : fsLookup fs src with
  | none =>
    have hcv : fs_copy fs src dst = none := by unfold fs_copy; rw [hs]
    rw [hcv] at h
    exact absurd h (by simp)
  | some nd =>
    cases nd with
    | dir mt =>
      have hcv : fs_copy fs src dst = none := by unfold fs_copy; rw [hs]
      rw [hcv] at h
      exact absurd h (by simp)
    | file c =>
      cases hd : fsLookup fs dst with
      | some nd' =>
        cases nd' with
        | dir mt =>
          have hcv : fs_copy fs src dst = none := by unfold fs_copy; rw [hs, hd]
          rw [hcv] at h
          exact absurd h (by simp)
        | file c' =>
          have hcv : fs_copy fs src dst =
              some (fs.map (fun e => if e.1 = dst then (dst, Node.file c) else e)) := by
            unfold fs_copy
            rw [hs, hd]
          rw [hcv] at h
          obtain rfl : fs.map _ = fs' := by injection h
          exact fsLookup_overwrite_ne fs c hq
      | none =>
        cases hpar : is_dir fs dst.dropLast with
        | true =>
          have hcv : fs_copy fs src dst = some (fs ++ [(dst, Node.file c)]) := by
            unfold fs_copy
            rw [hs, hd, hpar]
            rfl
          rw [hcv] at h
          obtain rfl : fs ++ [(dst, Node.file c)] = fs' := by injection h
          exact fsLookup_snoc_ne fs _ hq
        | false =>
          have hcv : fs_copy fs src dst = none := by
            unfold fs_copy
            rw [hs, hd, hpar]
            rfl
          rw [hcv] at h
          exact absurd h (by simp)

/-- The copy loop only ever writes children of the destination named by a
listed UTF-8 string. -/
theorem foldlM_copy_preserves (t : FPath) :
    ∀ (saves : List (String × FPath)) (acc out : FS),
      List.foldlM (fun a sf =>
        match sf.2.getLast? with
        | some n => fs_copy a sf.2 (t ++ [n])
        | none => some a) acc saves = some out →
      (∀ sf ∈ saves, sf.2.getLast? = some (FName.utf8 sf.1)) →
      ∀ q, (∀ s : String, q ≠ t ++ [FName.utf8 s]) →
      fsLookup out q = fsLookup acc q := by
  intro saves
  induction saves with
  | nil =>
    intro acc out h _ q _
    rw [List.foldlM_nil] at h
    obtain rfl : acc = out := by injection h
    rfl
  | cons sf saves ih =>
    intro acc out h hform q hq
    simp only [List.foldlM_cons] at h
    rw [hform sf (List.mem_cons_self sf saves)] at h
    simp only [Option.bind_eq_bind] at h
    cases hc : fs_copy acc sf.2 (t ++ [FName.utf8 sf.1]) with
    | none => rw [hc] at h; exact absurd h (by simp)
    | some a1 =>
      rw [hc] at h
      simp only [Option.bind_eq_bind, Option.some_bind] at h
      rw [ih a1 out h (fun sf' hsf' => hform sf' (List.mem_cons_of_mem _ hsf')) q hq]
      exact fs_copy_lookup_ne hc (fun hEq => hq sf.1 hEq.symm)

/-- Deletion changes no lookup away from UTF-8-named children of its
target. -/
theorem delete_save_files_lookup_ne {fs : FS} {path : FPath} {fs1 : FS}
    (h : delete_save_files fs path = some fs1) {q : FPath}
    (hq : ∀ s : String, q ≠ path ++ [FName.utf8 s]) :
    fsLookup fs1 q = fsLookup fs q := by
  obtain ⟨saves, hls, rfl⟩ := delete_save_files_eq h
  have hfm : find_matching fs path (fun q => is_file fs q)
      (fun n => str_starts n "SGTA") = some saves := hls
  rw [fsLookup_filter_mem]
  rw [if_neg]
  intro hmem
  rw [List.mem_map] at hmem
  obtain ⟨⟨s, q'⟩, hm, hq'⟩ := hmem
  obtain ⟨h1, -, -, -⟩ := (find_matching_mem hfm s q').mp hm
  apply hq s
  rw [← hq']
  exact h1

/-- The removal loop succeeds whenever the listed paths are distinct files. -/
theorem foldlM_remove_total :
    ∀ (ps : List (String × FPath)) (acc : FS),
      (ps.map Prod.snd).Nodup → (∀ sf ∈ ps, is_file acc sf.2 = true) →
      ∃ out, List.foldlM (fun a sf => remove_file a sf.2) acc ps = some out := by
  intro ps
  induction ps with
  | nil =>
    intro acc _ _
    exact ⟨acc, rfl⟩
  | cons sf ps ih =>
    intro acc hnod hfile
    rw [List.map_cons] at hnod
    obtain ⟨hnotmem, hnodt⟩ := List.nodup_cons.mp hnod
    have hstep : remove_file acc sf.2 =
        some (acc.filter (fun e => !decide (e.1 = sf.2))) := by
      unfold remove_file
      rw [if_pos (hfile sf (List.mem_cons_self sf ps))]
    have hfile' : ∀ sf' ∈ ps,
        is_file (acc.filter (fun e => !decide (e.1 = sf.2))) sf'.2 = true := by
      intro sf' hsf'
      have hne : sf'.2 ≠ sf.2 := by
        intro hEq
        exact hnotmem (hEq ▸ List.mem_map_of_mem Prod.snd hsf')
      rw [is_file_iff]
      obtain ⟨c, hc⟩ := (is_file_iff acc sf'.2).mp (hfile sf' (List.mem_cons_of_mem _ hsf'))
      refine ⟨c, ?_⟩
      rw [fsLookup_filterKey (fun k => !decide (k = sf.2)) acc sf'.2]
      rw [if_pos (by simp [hne])]
      exact hc
    obtain ⟨out, hout⟩ := ih (acc.filter (fun e => !decide (e.1 = sf.2))) hnodt hfile'
    refine ⟨out, ?_⟩
    rw [List.foldlM_cons, hstep]
    simpa using hout

/-- With a well-formed state, the paths in a `find_matching` output are
distinct. -/
theorem find_matching_paths_nodup {fs : FS} {path : FPath} {p : FPath → Bool}
    {m : String → Bool} {l : List (String × FPath)} (hwf : fsWf fs)
    (h : find_matching fs path p m = some l) : (l.map Prod.snd).Nodup := by
  have hnames := find_matching_names_nodup hwf h
  have heq : l.map Prod.snd = (l.map Prod.fst).map (fun s => path ++ [FName.utf8 s]) := by
    rw [List.map_map]
    refine List.map_congr_left ?_
    intro x hx
    obtain ⟨s, q⟩ := x
    obtain ⟨h1, -, -, -⟩ := (find_matching_mem h s q).mp hx
    exact h1
  rw [heq]
  refine hnames.map ?_
  intro a b hEq
  exact snoc_utf8_inj hEq

/-- `delete_save_files` succeeds on any directory of a well-formed state. -/
theorem delete_save_files_total {fs : FS} {d : FPath} (hwf : fsWf fs)
    (hd : is_dir fs d = true) : ∃ fs1, delete_save_files fs d = some fs1 := by
  obtain ⟨saves, hls⟩ : ∃ saves, list_save_files fs d = some saves := by
    have hi := find_matching_isSome fs d (fun q => is_file fs q)
      (fun n => str_starts n "SGTA")
    rw [hd] at hi
    exact Option.isSome_iff_exists.mp hi
  have hfm : find_matching fs d (fun q => is_file fs q)
      (fun n => str_starts n "SGTA") = some saves := hls
  have hpaths := find_matching_paths_nodup hwf hfm
  have hfiles : ∀ sf ∈ saves, is_file fs sf.2 = true := by
    intro sf hsf
    obtain ⟨s, q⟩ := sf
    obtain ⟨-, -, h3, -⟩ := (find_matching_mem hfm s q).mp hsf
    exact h3
  obtain ⟨out, hout⟩ := foldlM_remove_total saves fs hpaths hfiles
  refine ⟨out, ?_⟩
  unfold delete_save_files
  rw [hls]
  simpa using hout

/-- The lexicographic order is reflexive. -/
theorem listLe_refl : ∀ l : List Char, listLe l l = true := by
  intro l
  induction l with
  | nil => rfl
  | cons a xs ih =>
    unfold listLe
    rw [if_pos rfl]
    exact ih

/-- The lexicographic order is total. -/
theorem listLe_total : ∀ l1 l2 : List Char, (listLe l1 l2 || listLe l2 l1) = true := by
  intro l1
  induction l1 with
  | nil =>
    intro l2
    simp [listLe]
  | cons a xs ih =>
    intro l2
    cases l2 with
    | nil => simp [listLe]
    | cons b ys =>
      unfold listLe
      by_cases hab : a = b
      · rw [if_pos hab, if_pos hab.symm]
        exact ih ys
      · rw [if_neg hab, if_neg (fun hEq => hab hEq.symm)]
        rcases lt_trichotomy a b with h | h | h
        · simp [h]
        · exact absurd h hab
        · simp [h]

/-- The lexicographic order is transitive. -/
theorem listLe_trans : ∀ l1 l2 l3 : List Char,
    listLe l1 l2 = true → listLe l2 l3 = true → listLe l1 l3 = true := by
  intro l1
  induction l1 with
  | nil => intro l2 l3 _ _; rfl
  | cons a xs ih =>
    intro l2 l3 h12 h23
    cases l2 with
    | nil => exact absurd h12 (by simp [listLe])
    | cons b ys =>
      cases l3 with
      | nil => exact absurd h23 (by simp [listLe])
      | cons c zs =>
        unfold listLe at h12 h23 ⊢
        by_cases hab : a = b
        · rw [if_pos hab] at h12
          by_cases hbc : b = c
          · rw [if_pos hbc] at h23
            rw [if_pos (hab.trans hbc)]
            exact ih ys zs h12 h23
          · rw [if_neg hbc] at h23
            have hac : a ≠ c := fun hEq => hbc (hab.symm.trans hEq)
            rw [if_neg hac, hab]
            exact h23
        · rw [if_neg hab] at h12
          have hab' : a < b := of_decide_eq_true h12
          by_cases hbc : b = c
          · have hac : a < c := hbc ▸ hab'
            rw [if_neg (ne_of_lt hac)]
            exact decide_eq_true hac
          · rw [if_neg hbc] at h23
            have hbc' : b < c := of_decide_eq_true h23
            have hac : a < c := lt_trans hab' hbc'
            rw [if_neg (ne_of_lt hac)]
            exact decide_eq_true hac

/-- String comparison is reflexive. -/
theorem strLe_refl (s : String) : strLe s s = true := listLe_refl s.data

/-- A successful `Option`-valued `mapM` preserves length. -/
theorem mapM_option_length {α β : Type} (f : α → Option β) :
    ∀ {l : List α} {r : List β}, l.mapM f = some r → r.length = l.length := by
  intro l
  induction l with
  | nil =>
    intro r h
    rw [List.mapM_nil] at h
    obtain rfl : ([] : List β) = r := by injection h
    rfl
  | cons a as ih =>
    intro r h
    rw [List.mapM_cons] at h
    cases hf : f a with
    | none => rw [hf] at h; exact absurd h (by simp)
    | some b =>
      rw [hf] at h
      simp only [Option.bind_eq_bind, Option.some_bind] at h
      cases hm : as.mapM f with
      | none => rw [hm] at h; exact absurd h (by simp)
      | some rs =>
        rw [hm] at h
        simp only [Option.some_bind] at h
        obtain rfl : b :: rs = r := by injection h
        simp [ih hm]

/-- C3: scanning a readable directory with the save-file predicate (as
`list_save_files` does) returns exactly the files directly in that directory
whose name starts with `SGTA`; the criterion never looks at a file's
contents, only at the node kind and the name. -/
theorem list_save_files_exact {fs : FS} {d : FPath} {l : List (String × FPath)}
    (hl : list_save_files fs d = some l) :
    ∀ s q, ((s, q) ∈ l ↔
      (q = d ++ [FName.utf8 s] ∧ is_file fs q = true ∧ str_starts s "SGTA" = true)) := by
  intro s q
  have hfm : find_matching fs d (fun q => is_file fs q)
      (fun n => str_starts n "SGTA") = some l := hl
  rw [find_matching_mem hfm s q]
  constructor
  · rintro ⟨h1, -, h3, h4⟩
    exact ⟨h1, h3, h4⟩
  · rintro ⟨h1, h3, h4⟩
    refine ⟨h1, ?_, h3, h4⟩
    obtain ⟨c, hc⟩ := (is_file_iff fs q).mp h3
    rw [hc]
    rfl

/-- Witness for C3 on the concrete profile state. -/
theorem list_save_files_exact_witness :
    ("SGTA001", prof0 ++ [u8 "SGTA001"]) ∈
        [("SGTA001", prof0 ++ [u8 "SGTA001"]), ("SGTA002", prof0 ++ [u8 "SGTA002"])] ↔
      (prof0 ++ [u8 "SGTA001"] = prof0 ++ [FName.utf8 "SGTA001"] ∧
       is_file fs0 (prof0 ++ [u8 "SGTA001"]) = true ∧
       str_starts "SGTA001" "SGTA" = true) := by
  have hl : list_save_files fs0 prof0 =
      some [("SGTA001", prof0 ++ [u8 "SGTA001"]), ("SGTA002", prof0 ++ [u8 "SGTA002"])] := by
    decide
  exact list_save_files_exact hl "SGTA001" (prof0 ++ [u8 "SGTA001"])

/-- Witness for C1 on the concrete profile state: copying the profile's
save files into the (non-overlapping) `Profiles` directory makes its
save-file names agree with the profile's. -/
theorem copy_save_files_sets_dest_names_witness :
    "SGTA001" ∈ save_names
        (fs0 ++ [(profiles_of home0 ++ [u8 "SGTA001"], Node.file "a"),
                 (profiles_of home0 ++ [u8 "SGTA002"], Node.file "b")])
        (profiles_of home0) ↔
      "SGTA001" ∈ save_names fs0 prof0 := by
  have h : copy_save_files fs0 prof0 (profiles_of home0) =
      some (fs0 ++ [(profiles_of home0 ++ [u8 "SGTA001"], Node.file "a"),
                    (profiles_of home0 ++ [u8 "SGTA002"], Node.file "b")]) := by
    decide
  exact copy_save_files_sets_dest_names (by decide) (by decide) h "SGTA001"

/-- C4: on the concrete profile holding `SGTA001` and `SGTA002`, running
`--save slot1`, clearing the profile's save files, then running
`--load slot1` restores both files with their original contents, and the
profile's save-file set is exactly the original one. -/
theorem save_then_load_roundtrip :
    ((run_main fs0 (some home0) argsSave 5).bind (fun a =>
      (delete_save_files a.1 prof0).bind (fun b =>
        (run_main b (some home0) argsLoad 6).map (fun c =>
          (fsLookup c.1 (prof0 ++ [u8 "SGTA001"]),
           fsLookup c.1 (prof0 ++ [u8 "SGTA002"]),
           save_names c.1 prof0)))))
      = some (some (Node.file "a"), some (Node.file "b"), ["SGTA001", "SGTA002"]) := by
  decide

/-- C5 counterexample: when source and destination are the same directory,
`copy_save_files` deletes the source's save file, so the claim quantified
over all source/destination pairs fails. -/
theorem copy_save_files_aliasing_deletes_source :
    fsLookup fsc (cdir ++ [u8 "SGTA001"]) = some (Node.file "x") ∧
    (copy_save_files fsc cdir cdir).map
        (fun g => fsLookup g (cdir ++ [u8 "SGTA001"])) = some none := by
  decide

/-- C5 (amended): for distinct source and destination directories, a
successful `copy_save_files` leaves every lookup directly under the source
unchanged: no source file is deleted or modified. -/
theorem copy_save_files_preserves_source {fs : FS} {f t : FPath} {fs' : FS}
    (hne : f ≠ t) (h : copy_save_files fs f t = some fs') (n : FName) :
    fsLookup fs' (f ++ [n]) = fsLookup fs (f ++ [n]) := by
  unfold copy_save_files at h
  cases hdel : delete_save_files fs t with
  | none => rw [hdel] at h; exact absurd h (by simp)
  | some fs1 =>
    rw [hdel] at h
    simp only [Option.bind_eq_bind, Option.some_bind] at h
    cases hls : list_save_files fs1 f with
    | none => rw [hls] at h; exact absurd h (by simp)
    | some saves =>
      rw [hls] at h
      simp only [Option.some_bind] at h
      have hfm : find_matching fs1 f (fun q => is_file fs1 q)
          (fun n => str_starts n "SGTA") = some saves := hls
      have hq : ∀ s : String, f ++ [n] ≠ t ++ [FName.utf8 s] := by
        intro s hEq
        apply hne
        have hdl := congrArg List.dropLast hEq
        simpa using hdl
      have hform : ∀ sf ∈ saves, sf.2.getLast? = some (FName.utf8 sf.1) := by
        intro sf hsf
        obtain ⟨s, q⟩ := sf
        obtain ⟨h1, -, -, -⟩ := (find_matching_mem hfm s q).mp hsf
        rw [h1]
        exact List.getLast?_concat _
      rw [foldlM_copy_preserves t saves fs1 fs' h hform (f ++ [n]) hq]
      exact delete_save_files_lookup_ne hdel hq

/-- Witness for the amended C5 on the concrete profile state. -/
theorem copy_save_files_preserves_source_witness :
    fsLookup
        (fs0 ++ [(profiles_of home0 ++ [u8 "SGTA001"], Node.file "a"),
                 (profiles_of home0 ++ [u8 "SGTA002"], Node.file "b")])
        (prof0 ++ [u8 "SGTA001"]) =
      fsLookup fs0 (prof0 ++ [u8 "SGTA001"]) := by
  have h : copy_save_files fs0 prof0 (profiles_of home0) =
      some (fs0 ++ [(profiles_of home0 ++ [u8 "SGTA001"], Node.file "a"),
                    (profiles_of home0 ++ [u8 "SGTA002"], Node.file "b")]) := by
    decide
  exact copy_save_files_preserves_source (by decide) h (u8 "SGTA001")

/-- Inserting permutes to consing. -/
theorem insertSorted_perm (le : α → α → Bool) (a : α) :
    ∀ l : List α, (insertSorted le a l).Perm (a :: l) := by
  intro l
  induction l with
  | nil => exact List.Perm.refl _
  | cons b bs ih =>
    unfold insertSorted
    by_cases h : le a b
    · rw [if_pos h]
    · rw [if_neg h]
      exact (ih.cons b).trans (List.Perm.swap a b bs)

/-- The insertion sort permutes its input. -/
theorem sortBy_perm (le : α → α → Bool) :
    ∀ l : List α, (sortBy le l).Perm l := by
  intro l
  induction l with
  | nil => exact List.Perm.refl _
  | cons a as ih =>
    exact (insertSorted_perm le a (sortBy le as)).trans (ih.cons a)

/-- Insertion preserves sortedness for a transitive, total comparator. -/
theorem insertSorted_pairwise {le : α → α → Bool}
    (trans : ∀ a b c, le a b = true → le b c = true → le a c = true)
    (total : ∀ a b, (le a b || le b a) = true) (a : α) :
    ∀ {l : List α}, List.Pairwise (fun x y => le x y = true) l →
      List.Pairwise (fun x y => le x y = true) (insertSorted le a l) := by
  intro l
  induction l with
  | nil =>
    intro _
    simp [insertSorted]
  | cons b bs ih =>
    intro hl
    unfold insertSorted
    by_cases h : le a b
    · rw [if_pos h]
      rw [List.pairwise_cons]
      refine ⟨?_, hl⟩
      intro x hx
      rcases List.mem_cons.mp hx with rfl | hxbs
      · exact h
      · exact trans a b x h ((List.pairwise_cons.mp hl).1 x hxbs)
    · rw [if_neg h]
      rw [List.pairwise_cons] at hl ⊢
      obtain ⟨hb, hbs⟩ := hl
      refine ⟨?_, ih hbs⟩
      intro x hx
      have hx' : x ∈ a :: bs := ((insertSorted_perm le a bs).mem_iff).mp hx
      rcases List.mem_cons.mp hx' with rfl | hxbs
      · have htot := total x b
        rw [Bool.or_eq_true] at htot
        rcases htot with h1 | h1
        · exact absurd h1 h
        · exact h1
      · exact hb x hxbs

/-- The insertion sort sorts, for a transitive, total comparator. -/
theorem sortBy_pairwise {le : α → α → Bool}
    (trans : ∀ a b c, le a b = true → le b c = true → le a c = true)
    (total : ∀ a b, (le a b || le b a) = true) :
    ∀ l : List α, List.Pairwise (fun x y => le x y = true) (sortBy le l) := by
  intro l
  induction l with
  | nil => exact List.Pairwise.nil
  | cons a as ih => exact insertSorted_pairwise trans total a ih

/-- C2: a successful `find_newest_slot` lists the subdirectories of the
profile's `Slots` directory (in the post-`ensure_slot` state `fs1`), pairs
each with its modification time, and returns the path at index `nth` of a
permutation of that list sorted in descending time order; the result is
`none` exactly when `nth` is at least the number of slot subdirectories. -/
theorem find_newest_slot_ranked {fs : FS} {profile : FPath} {nth now : Nat}
    {fs1 : FS} {r : Option FPath}
    (h : find_newest_slot fs profile nth now = some (fs1, r)) :
    ∃ subs tl sorted,
      find_matching fs1 (profile ++ [FName.utf8 "Slots"]) (fun q => is_dir fs1 q)
          (fun _ => true) = some subs ∧
      subs.mapM (fun s => (metadata_modified fs1 s.2).map (fun mt => (s.2, mt)))
          = some tl ∧
      sorted.Perm tl ∧
      List.Pairwise (fun (a b : FPath × Nat) => b.2 ≤ a.2) sorted ∧
      r = (sorted[nth]?).map Prod.fst ∧
      (r = none ↔ subs.length ≤ nth) := by
  unfold find_newest_slot at h
  cases hes : ensure_slot fs profile now with
  | none => rw [hes] at h; exact absurd h (by simp)
  | some pr =>
    obtain ⟨fs1', slots⟩ := pr
    have hsl := ensure_slot_eq hes
    subst hsl
    rw [hes] at h
    simp only [Option.bind_eq_bind, Option.some_bind] at h
    cases hsub : find_matching fs1' (profile ++ [FName.utf8 "Slots"])
        (fun q => is_dir fs1' q) (fun _ => true) with
    | none => rw [hsub] at h; exact absurd h (by simp)
    | some subs =>
      rw [hsub] at h
      simp only [Option.some_bind] at h
      cases hmeta : subs.mapM
          (fun s => (metadata_modified fs1' s.2).map (fun mt => (s.2, mt))) with
      | none => rw [hmeta] at h; exact absurd h (by simp)
      | some tl =>
        rw [hmeta] at h
        simp only [Option.some_bind] at h
        injection h with h'
        obtain rfl : fs1' = fs1 := congrArg Prod.fst h'
        have hr : ((sortBy (fun (a b : FPath × Nat) => decide (b.2 ≤ a.2)) tl)[nth]?).map
            Prod.fst = r := congrArg Prod.snd h'
        refine ⟨subs, tl, sortBy (fun a b => decide (b.2 ≤ a.2)) tl,
          hsub, hmeta, sortBy_perm _ tl, ?_, hr.symm, ?_⟩
        · have hs : List.Pairwise
              (fun (x y : FPath × Nat) => decide (y.2 ≤ x.2) = true)
              (sortBy (fun (a b : FPath × Nat) => decide (b.2 ≤ a.2)) tl) :=
            @sortBy_pairwise (FPath × Nat) (fun a b => decide (b.2 ≤ a.2))
              (fun a b c h1 h2 =>
                decide_eq_true (Nat.le_trans (of_decide_eq_true h2) (of_decide_eq_true h1)))
              (fun a b => by
                rcases Nat.le_total b.2 a.2 with hab | hab <;> simp [hab]) tl
          refine hs.imp ?_
          intro a b hba
          exact of_decide_eq_true hba
        · rw [← hr]
          have hlen : (sortBy (fun (a b : FPath × Nat) => decide (b.2 ≤ a.2)) tl).length
              = subs.length := by
            rw [(sortBy_perm _ tl).length_eq]
            exact mapM_option_length _ hmeta
          rw [Option.map_eq_none']
          rw [← hlen]
          exact List.getElem?_eq_none_iff

/-- Witness for C2: with slots `A` (time 5) and `B` (time 9), rank 0 is `B`,
and rank 0 is within range. -/
theorem find_newest_slot_ranked_witness :
    ∃ subs tl sorted,
      find_matching fsw (profW ++ [FName.utf8 "Slots"]) (fun q => is_dir fsw q)
          (fun _ => true) = some subs ∧
      subs.mapM (fun s => (metadata_modified fsw s.2).map (fun mt => (s.2, mt)))
          = some tl ∧
      sorted.Perm tl ∧
      List.Pairwise (fun (a b : FPath × Nat) => b.2 ≤ a.2) sorted ∧
      some (slotsW ++ [u8 "B"]) = (sorted[0]?).map Prod.fst ∧
      (some (slotsW ++ [u8 "B"]) = none ↔ subs.length ≤ 0) := by
  have h : find_newest_slot fsw profW 0 99 = some (fsw, some (slotsW ++ [u8 "B"])) := by
    decide
  exact find_newest_slot_ranked h

/-- C6: when the `Profiles` directory is missing, the run prints the missing
message, leaves the state untouched and exits successfully; by contrast
another missing directory (`Save Files`, during `--load-save-file`) aborts
the run with an error. -/
theorem missing_profiles_dir_noop {fs : FS} {home : FPath} {a : Args} {now : Nat}
    (hnd : is_dir fs (profiles_of home) = false) :
    run_main fs (some home) a now = some (fs, ["Missing profile directory"]) ∧
    run_main fs6 (some home0) argsLsf 0 = none := by
  constructor
  · simp [run_main, hnd]
  · decide

/-- Witness for C6 on a concrete state with no `Profiles` directory. -/
theorem missing_profiles_dir_noop_witness :
    run_main fsc (some home0) argsSave 0 = some (fsc, ["Missing profile directory"]) ∧
    run_main fs6 (some home0) argsLsf 0 = none :=
  missing_profiles_dir_noop (by decide)

/-- C7: in the `--delete-nth-newest-slot` branch, once the slot's save files
are deleted, a failing `remove_dir` only logs `Failed to remove directory`;
the branch still succeeds, and so does the profile's whole dispatch. -/
theorem delete_nth_remove_dir_failure_nonfatal {fs : FS} {profile p : FPath}
    {nth now : Nat} {fs1 fs2 : FS}
    (h1 : find_newest_slot fs profile nth now = some (fs1, some p))
    (h2 : delete_save_files fs1 p = some fs2)
    (h3 : remove_dir fs2 p = none) :
    delete_nth_branch fs profile nth now = some (fs2, ["Failed to remove directory"]) ∧
    process_profile (Args.mk none none none false false none (some nth)) fs profile now
      = some (fs2, ["Failed to remove directory"]) := by
  have hb : delete_nth_branch fs profile nth now =
      some (fs2, ["Failed to remove directory"]) := by
    unfold delete_nth_branch
    rw [h1]
    simp only [Option.bind_eq_bind, Option.some_bind]
    rw [h2]
    simp only [Option.some_bind]
    rw [h3]
  exact ⟨hb, hb⟩

/-- Witness for C7: the slot also holds `keep.txt`, so the directory cannot
be removed after its save file is deleted; the branch and the dispatch both
succeed with the logged message. -/
theorem delete_nth_remove_dir_failure_nonfatal_witness :
    delete_nth_branch fs7 profW 0 99 = some (fs7del, ["Failed to remove directory"]) ∧
    process_profile (Args.mk none none none false false none (some 0)) fs7 profW 99
      = some (fs7del, ["Failed to remove directory"]) := by
  have h2 : delete_save_files fs7 (slotsW ++ [u8 "A"]) = some fs7del := by decide
  exact delete_nth_remove_dir_failure_nonfatal (by decide) h2 (by decide)

/-- C9: entries whose name is not representable as UTF-8 are invisible to
the program: scanning succeeds regardless of their presence (failure depends
only on the path not being a directory), every listed entry has a UTF-8
final name, and neither deletion nor copying ever touches an entry whose
final path component is non-UTF-8. -/
theorem non_utf8_entries_invisible :
    (∀ (fs : FS) (d : FPath) (p : FPath → Bool) (m : String → Bool),
        (find_matching fs d p m).isSome = is_dir fs d) ∧
    (∀ (fs : FS) (d : FPath) (p : FPath → Bool) (m : String → Bool)
        (l : List (String × FPath)), find_matching fs d p m = some l →
        ∀ s q, (s, q) ∈ l → q.getLast? = some (FName.utf8 s)) ∧
    (∀ (fs fs1 : FS) (d : FPath), delete_save_files fs d = some fs1 →
        ∀ q k, q.getLast? = some (FName.nonUtf8 k) → fsLookup fs1 q = fsLookup fs q) ∧
    (∀ (fs fs' : FS) (f t : FPath), copy_save_files fs f t = some fs' →
        ∀ q k, q.getLast? = some (FName.nonUtf8 k) → fsLookup fs' q = fsLookup fs q) := by
  refine ⟨find_matching_isSome, ?_, ?_, ?_⟩
  · intro fs d p m l h s q hmem
    obtain ⟨h1, -, -, -⟩ := (find_matching_mem h s q).mp hmem
    rw [h1]
    exact List.getLast?_concat _
  · intro fs fs1 d h q k hlast
    refine delete_save_files_lookup_ne h ?_
    intro s hEq
    rw [hEq, List.getLast?_concat] at hlast
    exact absurd hlast (by simp)
  · intro fs fs' f t h q k hlast
    have hq : ∀ s : String, q ≠ t ++ [FName.utf8 s] := by
      intro s hEq
      rw [hEq, List.getLast?_concat] at hlast
      exact absurd hlast (by simp)
    unfold copy_save_files at h
    cases hdel : delete_save_files fs t with
    | none => rw [hdel] at h; exact absurd h (by simp)
    | some fs1 =>
      rw [hdel] at h
      simp only [Option.bind_eq_bind, Option.some_bind] at h
      cases hls : list_save_files fs1 f with
      | none => rw [hls] at h; exact absurd h (by simp)
      | some saves =>
        rw [hls] at h
        simp only [Option.some_bind] at h
        have hfm : find_matching fs1 f (fun q => is_file fs1 q)
            (fun n => str_starts n "SGTA") = some saves := hls
        have hform : ∀ sf ∈ saves, sf.2.getLast? = some (FName.utf8 sf.1) := by
          intro sf hsf
          obtain ⟨s, q'⟩ := sf
          obtain ⟨h1, -, -, -⟩ := (find_matching_mem hfm s q').mp hsf
          rw [h1]
          exact List.getLast?_concat _
        rw [foldlM_copy_preserves t saves fs1 fs' h hform q hq]
        exact delete_save_files_lookup_ne hdel hq

/-- Witness for C9: deleting the save files of `d` leaves the lookup of the
non-UTF-8-named entry unchanged. -/
theorem non_utf8_entries_invisible_witness :
    fsLookup fsN1 [u8 "d", FName.nonUtf8 7] = fsLookup fsN [u8 "d", FName.nonUtf8 7] :=
  non_utf8_entries_invisible.2.2.1 fsN fsN1 [u8 "d"] (by decide)
    [u8 "d", FName.nonUtf8 7] 7 (by decide)

/-- C8: `--load-save-file` considers exactly the directories of
`profile/Save Files` whose name contains the argument; with no match the
state is unchanged, and otherwise the branch transfers the match with the
lexicographically greatest name into the profile. -/
theorem load_save_file_picks_greatest {fs : FS} {profile : FPath} {name : String}
    {ms : List (String × FPath)}
    (hms : list_name_contains fs (profile ++ [FName.utf8 "Save Files"]) name = some ms) :
    (∀ s q, ((s, q) ∈ ms ↔
       (q = profile ++ [FName.utf8 "Save Files"] ++ [FName.utf8 s] ∧
        is_dir fs q = true ∧ strHasSub s name = true))) ∧
    (ms = [] → load_save_file_branch fs profile name = some fs) ∧
    (ms ≠ [] → ∃ b, b ∈ ms ∧ (∀ x ∈ ms, strLe x.1 b.1 = true) ∧
       load_save_file_branch fs profile name = copy_save_files fs b.2 profile) := by
  have hfm : find_matching fs (profile ++ [FName.utf8 "Save Files"])
      (fun q => is_dir fs q) (fun n => strHasSub n name) = some ms := hms
  refine ⟨?_, ?_, ?_⟩
  · intro s q
    rw [find_matching_mem hfm s q]
    constructor
    · rintro ⟨h1, -, h3, h4⟩
      exact ⟨h1, h3, h4⟩
    · rintro ⟨h1, h3, h4⟩
      refine ⟨h1, ?_, h3, h4⟩
      obtain ⟨mt, hmt⟩ := (is_dir_iff fs q).mp h3
      rw [hmt]
      rfl
  · intro hnil
    subst hnil
    unfold load_save_file_branch
    rw [hms]
    rfl
  · intro hne
    cases hs : sortBy (fun (a b : String × FPath) => strLe b.1 a.1) ms with
    | nil =>
      exfalso
      apply hne
      have hperm := sortBy_perm (fun (a b : String × FPath) => strLe b.1 a.1) ms
      rw [hs] at hperm
      exact (hperm.symm).eq_nil
    | cons b rest =>
      have hperm := sortBy_perm (fun (a b : String × FPath) => strLe b.1 a.1) ms
      refine ⟨b, ?_, ?_, ?_⟩
      · refine hperm.mem_iff.mp ?_
        rw [hs]
        exact List.mem_cons_self b rest
      · intro x hx
        have hsorted := @sortBy_pairwise (String × FPath)
          (fun a b => strLe b.1 a.1)
          (fun a b c h1 h2 => listLe_trans c.1.data b.1.data a.1.data h2 h1)
          (fun a b => listLe_total b.1.data a.1.data) ms
        rw [hs] at hsorted
        obtain ⟨hhead, -⟩ := List.pairwise_cons.mp hsorted
        have hx' : x ∈ b :: rest := by
          rw [← hs]
          exact hperm.mem_iff.mpr hx
        rcases List.mem_cons.mp hx' with rfl | hxr
        · exact strLe_refl x.1
        · exact hhead x hxr
      · unfold load_save_file_branch
        rw [hms]
        simp only [Option.bind_eq_bind, Option.some_bind]
        rw [hs]
        rfl

/-- Witness for C8: among `abc1`, `abc2`, `zzz` the matches for `abc` are
the first two, and the branch transfers `abc2`. -/
theorem load_save_file_picks_greatest_witness :
    load_save_file_branch fs8 prof0 "abc" =
      copy_save_files fs8 (prof0 ++ [u8 "Save Files", u8 "abc2"]) prof0 := by
  have hms : list_name_contains fs8 (prof0 ++ [FName.utf8 "Save Files"]) "abc" =
      some [("abc1", prof0 ++ [u8 "Save Files", u8 "abc1"]),
            ("abc2", prof0 ++ [u8 "Save Files", u8 "abc2"])] := by decide
  obtain ⟨-, -, h3⟩ := load_save_file_picks_greatest hms
  obtain ⟨b, hb, hmax, heq⟩ := h3 (by simp)
  rcases List.mem_cons.mp hb with rfl | hb2
  · exfalso
    have hlex := hmax ("abc2", prof0 ++ [u8 "Save Files", u8 "abc2"]) (by simp)
    exact absurd hlex (by decide)
  · rcases List.mem_cons.mp hb2 with rfl | hb3
    · exact heq
    · exact absurd hb3 (by simp)

/-- C10: `--load` with a slot name whose directory does not exist creates
that slot directory empty, then clears the profile's save files and copies
nothing, leaving the profile with zero save files. -/
theorem load_missing_slot_clears_profile {fs : FS} {profile : FPath}
    {name : String} {now : Nat} {fs1 : FS} {slots : FPath}
    (hwf : fsWf fs)
    (hes : ensure_slot fs profile now = some (fs1, slots))
    (hdirp : is_dir fs1 profile = true)
    (habs : fsLookup fs1 (slots ++ [FName.utf8 name]) = none)
    (hkids : ∀ e ∈ fs1, childOf (slots ++ [FName.utf8 name]) e.1 = none) :
    ∃ fs', load_branch fs profile name now = some fs' ∧
      list_save_files fs' profile = some [] ∧
      is_dir fs' (slots ++ [FName.utf8 name]) = true ∧
      read_dir fs' (slots ++ [FName.utf8 name]) = some [] := by
  have hsl := ensure_slot_eq hes
  subst hsl
  have hwf1 : fsWf fs1 := ensure_slot_wf hwf hes
  have hsdir : is_dir fs1 (profile ++ [FName.utf8 "Slots"]) = true := ensure_slot_is_dir hes
  have hne_slot_prof : profile ++ [FName.utf8 "Slots"] ++ [FName.utf8 name] ≠ profile := by
    intro hEq
    have hl := congrArg List.length hEq
    simp only [List.length_append, List.length_cons, List.length_nil] at hl
    omega
  have hne_slots_slot : profile ++ [FName.utf8 "Slots"] ≠
      profile ++ [FName.utf8 "Slots"] ++ [FName.utf8 name] := by
    intro hEq
    have hl := congrArg List.length hEq
    simp only [List.length_append, List.length_cons, List.length_nil] at hl
    omega
  have hdl : (profile ++ [FName.utf8 "Slots"] ++ [FName.utf8 name]).dropLast
      = profile ++ [FName.utf8 "Slots"] := by simp
  have hnotdir : is_dir fs1 (profile ++ [FName.utf8 "Slots"] ++ [FName.utf8 name]) = false := by
    unfold is_dir
    rw [habs]
  have hcd : create_dir fs1 (profile ++ [FName.utf8 "Slots"] ++ [FName.utf8 name]) now =
      some (fs1 ++ [(profile ++ [FName.utf8 "Slots"] ++ [FName.utf8 name], Node.dir now)]) := by
    unfold create_dir
    rw [habs, hdl, hsdir]
    rfl
  have hlb : load_branch fs profile name now =
      copy_save_files
        (fs1 ++ [(profile ++ [FName.utf8 "Slots"] ++ [FName.utf8 name], Node.dir now)])
        (profile ++ [FName.utf8 "Slots"] ++ [FName.utf8 name]) profile := by
    unfold load_branch
    rw [hes]
    simp only [Option.bind_eq_bind, Option.some_bind]
    rw [if_neg (show ¬ is_dir fs1
        (profile ++ [FName.utf8 "Slots"] ++ [FName.utf8 name]) = true by
      rw [hnotdir]; simp)]
    rw [hcd]
    simp only [Option.some_bind]
  have hdirp2 : is_dir
      (fs1 ++ [(profile ++ [FName.utf8 "Slots"] ++ [FName.utf8 name], Node.dir now)])
      profile = true := by
    rw [is_dir_iff] at hdirp ⊢
    obtain ⟨mt0, h0⟩ := hdirp
    refine ⟨mt0, ?_⟩
    rw [fsLookup_snoc_ne fs1 _ hne_slot_prof]
    exact h0
  have hslotdir2 : is_dir
      (fs1 ++ [(profile ++ [FName.utf8 "Slots"] ++ [FName.utf8 name], Node.dir now)])
      (profile ++ [FName.utf8 "Slots"] ++ [FName.utf8 name]) = true := by
    rw [is_dir_iff]
    refine ⟨now, ?_⟩
    rw [fsLookup_snoc, habs]
    simp
  have hwf2 : fsWf
      (fs1 ++ [(profile ++ [FName.utf8 "Slots"] ++ [FName.utf8 name], Node.dir now)]) :=
    create_dir_wf hwf1 hcd
  obtain ⟨fs3, hdel⟩ := delete_save_files_total hwf2 hdirp2
  obtain ⟨dsaves, hld2, hfs3⟩ := delete_save_files_eq hdel
  have hfm2 : find_matching
      (fs1 ++ [(profile ++ [FName.utf8 "Slots"] ++ [FName.utf8 name], Node.dir now)])
      profile
      (fun q => is_file
        (fs1 ++ [(profile ++ [FName.utf8 "Slots"] ++ [FName.utf8 name], Node.dir now)]) q)
      (fun n => str_starts n "SGTA") = some dsaves := hld2
  have hlook3 : ∀ q, fsLookup fs3 q =
      if q ∈ dsaves.map Prod.snd then none
      else fsLookup
        (fs1 ++ [(profile ++ [FName.utf8 "Slots"] ++ [FName.utf8 name], Node.dir now)]) q := by
    intro q
    rw [hfs3]
    exact fsLookup_filter_mem _ _ q
  have hdshape : ∀ q ∈ dsaves.map Prod.snd, ∃ s, q = profile ++ [FName.utf8 s] := by
    intro q hq
    rw [List.mem_map] at hq
    obtain ⟨⟨s, q'⟩, hm, hq'⟩ := hq
    obtain ⟨h1, -, -, -⟩ := (find_matching_mem hfm2 s q').mp hm
    refine ⟨s, ?_⟩
    rw [← hq']
    exact h1
  have hprof_notin : profile ∉ dsaves.map Prod.snd := by
    intro hq
    obtain ⟨s, hqe⟩ := hdshape profile hq
    have hl := congrArg List.length hqe
    simp only [List.length_append, List.length_cons, List.length_nil] at hl
    omega
  have hslot_notin : (profile ++ [FName.utf8 "Slots"] ++ [FName.utf8 name])
      ∉ dsaves.map Prod.snd := by
    intro hq
    obtain ⟨s, hqe⟩ := hdshape _ hq
    have hl := congrArg List.length hqe
    simp only [List.length_append, List.length_cons, List.length_nil] at hl
    omega
  have hdirp3 : is_dir fs3 profile = true := by
    rw [is_dir_iff] at hdirp2 ⊢
    obtain ⟨mt0, h0⟩ := hdirp2
    refine ⟨mt0, ?_⟩
    rw [hlook3, if_neg hprof_notin]
    exact h0
  have hslotdir3 : is_dir fs3 (profile ++ [FName.utf8 "Slots"] ++ [FName.utf8 name]) = true := by
    rw [is_dir_iff] at hslotdir2 ⊢
    obtain ⟨mt0, h0⟩ := hslotdir2
    refine ⟨mt0, ?_⟩
    rw [hlook3, if_neg hslot_notin]
    exact h0
  obtain ⟨l4, hl4⟩ : ∃ l4, list_save_files fs3
      (profile ++ [FName.utf8 "Slots"] ++ [FName.utf8 name]) = some l4 := by
    have hi := find_matching_isSome fs3 (profile ++ [FName.utf8 "Slots"] ++ [FName.utf8 name])
      (fun q => is_file fs3 q) (fun n => str_starts n "SGTA")
    rw [hslotdir3] at hi
    exact Option.isSome_iff_exists.mp hi
  have hl4nil : l4 = [] := by
    rw [List.eq_nil_iff_forall_not_mem]
    intro x hx
    obtain ⟨s, q⟩ := x
    have hfm4 : find_matching fs3 (profile ++ [FName.utf8 "Slots"] ++ [FName.utf8 name])
        (fun q => is_file fs3 q) (fun n => str_starts n "SGTA") = some l4 := hl4
    obtain ⟨h1, h2, -, -⟩ := (find_matching_mem hfm4 s q).mp hx
    subst h1
    have hq1 : (profile ++ [FName.utf8 "Slots"] ++ [FName.utf8 name] ++ [FName.utf8 s])
        ∉ dsaves.map Prod.snd := by
      intro hq
      obtain ⟨s', hqe⟩ := hdshape _ hq
      have hl := congrArg List.length hqe
      simp only [List.length_append, List.length_cons, List.length_nil] at hl
      omega
    rw [hlook3, if_neg hq1] at h2
    have hne2 : (profile ++ [FName.utf8 "Slots"] ++ [FName.utf8 name]) ≠
        (profile ++ [FName.utf8 "Slots"] ++ [FName.utf8 name] ++ [FName.utf8 s]) := by
      intro hEq
      have hl := congrArg List.length hEq
      simp only [List.length_append, List.length_cons, List.length_nil] at hl
      omega
    rw [fsLookup_snoc_ne fs1 _ hne2] at h2
    obtain ⟨e, he, hep⟩ := (fsLookup_isSome_iff _ _).mp h2
    have hkid := hkids e he
    rw [hep, childOf_append] at hkid
    exact absurd hkid (by simp)
  subst hl4nil
  have hcopy : copy_save_files
      (fs1 ++ [(profile ++ [FName.utf8 "Slots"] ++ [FName.utf8 name], Node.dir now)])
      (profile ++ [FName.utf8 "Slots"] ++ [FName.utf8 name]) profile = some fs3 := by
    unfold copy_save_files
    rw [hdel]
    simp only [Option.bind_eq_bind, Option.some_bind]
    rw [hl4]
    simp only [Option.some_bind]
    rw [List.foldlM_nil]
    rfl
  obtain ⟨l5, hl5⟩ : ∃ l5, list_save_files fs3 profile = some l5 := by
    have hi := find_matching_isSome fs3 profile
      (fun q => is_file fs3 q) (fun n => str_starts n "SGTA")
    rw [hdirp3] at hi
    exact Option.isSome_iff_exists.mp hi
  have hl5nil : l5 = [] := by
    rw [List.eq_nil_iff_forall_not_mem]
    intro x hx
    obtain ⟨s, q⟩ := x
    have hfm5 : find_matching fs3 profile
        (fun q => is_file fs3 q) (fun n => str_starts n "SGTA") = some l5 := hl5
    obtain ⟨h1, -, h3, h4⟩ := (find_matching_mem hfm5 s q).mp hx
    subst h1
    obtain ⟨c, hc⟩ := (is_file_iff _ _).mp h3
    rw [hlook3] at hc
    by_cases hdm : (profile ++ [FName.utf8 s]) ∈ dsaves.map Prod.snd
    · rw [if_pos hdm] at hc
      exact absurd hc (by simp)
    · rw [if_neg hdm] at hc
      apply hdm
      rw [List.mem_map]
      refine ⟨(s, profile ++ [FName.utf8 s]), ?_, rfl⟩
      refine (find_matching_mem hfm2 s _).mpr ⟨rfl, by rw [hc]; rfl, ?_, h4⟩
      rw [is_file_iff]
      exact ⟨c, hc⟩
  subst hl5nil
  refine ⟨fs3, ?_, hl5, hslotdir3, ?_⟩
  · rw [hlb]
    exact hcopy
  · unfold read_dir
    rw [hslotdir3]
    rw [if_pos rfl]
    refine congrArg some ?_
    rw [List.filterMap_eq_nil_iff]
    intro e he
    rw [hfs3] at he
    have he2 := (List.mem_filter.mp he).1
    rcases List.mem_append.mp he2 with he1 | hnew
    · exact hkids e he1
    · have henew : e = (profile ++ [FName.utf8 "Slots"] ++ [FName.utf8 name], Node.dir now) := by
        simpa using hnew
      rw [henew]
      unfold childOf
      rw [hdl]
      rw [if_neg hne_slots_slot]

/-- Witness for C10: loading the nonexistent slot `nope` creates it empty
and leaves the profile with zero save files. -/
theorem load_missing_slot_clears_profile_witness :
    ∃ fs', load_branch fsA prof0 "nope" 3 = some fs' ∧
      list_save_files fs' prof0 = some [] ∧
      is_dir fs' (prof0 ++ [FName.utf8 "Slots"] ++ [FName.utf8 "nope"]) = true ∧
      read_dir fs' (prof0 ++ [FName.utf8 "Slots"] ++ [FName.utf8 "nope"]) = some [] := by
  have hes : ensure_slot fsA prof0 3 = some (fsA, prof0 ++ [FName.utf8 "Slots"]) := by
    decide
  exact load_missing_slot_clears_profile (by decide) hes (by decide) (by decide) (by decide)
